import Mathlib

/-!
# WhatsApp-Task-Tracker: command parser, relay classification and event handler

A shallow embedding of `src/main.go`.

* Go strings are modelled as lists of Unicode code points (`Str`); the inputs
  are taken to be valid UTF-8 text, which is what both `regexp` and
  `strings.TrimSpace` iterate over.
* `regexp` matching is modelled by a backtracking matcher over the compiled
  node sequence of `taskCommandRegex`.  Go's `regexp` returns the match a
  backtracking search finds first (leftmost-first), so the model follows that
  priority order: a greedy loop tries the longest repetition first, a lazy
  loop the shortest.
* side effects of the event handler (parser calls, relay calls, messages
  sent) are recorded in an explicit trace.
-/

namespace TaskTracker

/-- Go `string`, as the sequence of its runes. -/
abbrev Str := List Char

/-! ## Constants -/

/-- The constant `OwnerJID` (main.go line 30). -/
def OwnerJID : Str := "918712157587@s.whatsapp.net".toList

/-! ## Character classes -/

/-- Go `unicode.IsSpace`: the Latin-1 cases and the `White_Space` table. -/
def isSpace (c : Char) : Bool :=
  let n := c.toNat
  (0x09 ≤ n ∧ n ≤ 0x0D) ∨ n = 0x20 ∨ n = 0x85 ∨ n = 0xA0 ∨ n = 0x1680 ∨
  (0x2000 ≤ n ∧ n ≤ 0x200A) ∨ n = 0x2028 ∨ n = 0x2029 ∨ n = 0x202F ∨
  n = 0x205F ∨ n = 0x3000

/-- Regexp class `\s`, which in Go's RE2 syntax is `[\t\n\f\r ]`. -/
def reSpace (c : Char) : Bool :=
  c = '\t' ∨ c = '\n' ∨ c = '\x0c' ∨ c = '\r' ∨ c = ' '

/-- Regexp class `\S`, the complement of `\s`. -/
def reNotSpace (c : Char) : Bool := !reSpace c

/-- Regexp class `\d`, which is `[0-9]`. -/
def reDigit (c : Char) : Bool := '0' ≤ c ∧ c ≤ '9'

/-- Regexp `.` without the `s` flag: any character but line feed. -/
def reDot (c : Char) : Bool := !(c = '\n')

/-- A literal character that has no case variants (`|`, `-`). -/
def reLit (a : Char) (c : Char) : Bool := c = a

/-- Under `(?i)`, `T` matches its simple-fold orbit: `T`, `t`. -/
def foldT (c : Char) : Bool := c = 'T' ∨ c = 't'

/-- Under `(?i)`, `a` matches its simple-fold orbit: `A`, `a`. -/
def foldA (c : Char) : Bool := c = 'A' ∨ c = 'a'

/-- Under `(?i)`, `s` matches its simple-fold orbit: `S`, `s`, U+017F (long s). -/
def foldS (c : Char) : Bool := c = 'S' ∨ c = 's' ∨ c = '\u017f'

/-- Under `(?i)`, `k` matches its simple-fold orbit: `K`, `k`, U+212A (Kelvin sign). -/
def foldK (c : Char) : Bool := c = 'K' ∨ c = 'k' ∨ c = '\u212a'

/-! ## strings.TrimSpace -/

/-- Go `strings.TrimSpace`: drops leading and trailing `unicode.IsSpace` runes. -/
def TrimSpace (s : Str) : Str := (s.dropWhile isSpace).rdropWhile isSpace

/-! ## The regular expression -/

/-- The nodes the pattern of `taskCommandRegex` is built from.  Every
    repetition in the pattern is over a single character class. -/
inductive Node where
  /-- one character of the class -/
  | chr (p : Char → Bool)
  /-- `x*`, greedy -/
  | star (p : Char → Bool)
  /-- `x+`, greedy -/
  | plus (p : Char → Bool)
  /-- `x+?`, lazy -/
  | plusLazy (p : Char → Bool)
  /-- `(`, the start of a capture group -/
  | gopen
  /-- `)`, the end of a capture group -/
  | gclose

/-- The separator `\s*\|\s*` between two segments. -/
def sepNodes : List Node := [.star reSpace, .chr (reLit '|'), .star reSpace]

/-- The date group `(\d{4}-\d{2}-\d{2})`, its counted repetitions unrolled. -/
def dateNodes : List Node :=
  [.gopen,
   .chr reDigit, .chr reDigit, .chr reDigit, .chr reDigit, .chr (reLit '-'),
   .chr reDigit, .chr reDigit, .chr (reLit '-'),
   .chr reDigit, .chr reDigit,
   .gclose]

/-- The pattern of `taskCommandRegex` (main.go line 37), after the leading `^`:
    `(?i)Task\s+(.+?)\s*\|\s*(\d{4}-\d{2}-\d{2})\s*\|\s*(.+?)\s*\|\s*(\S+)\s*\|\s*(.+)`. -/
def taskCommandRegex : List Node :=
  [.chr foldT, .chr foldA, .chr foldS, .chr foldK, .plus reSpace,
   .gopen, .plusLazy reDot, .gclose] ++ sepNodes ++
  dateNodes ++ sepNodes ++
  [.gopen, .plusLazy reDot, .gclose] ++ sepNodes ++
  [.gopen, .plus reNotSpace, .gclose] ++ sepNodes ++
  [.gopen, .plus reDot, .gclose]

/-- Greedy loop over class `p` followed by the rest of the pattern `k`: takes
    one more character whenever that leads to a match, and stops otherwise.
    Returns the text the loop consumed and the result of `k`. -/
def loopGreedy (p : Char → Bool) (k : Str → Option (List Str)) :
    Str → Option (Str × List Str)
  | [] => (k []).map (fun r => ([], r))
  | c :: s =>
    if p c then
      match loopGreedy p k s with
      | some (w, r) => some (c :: w, r)
      | none => (k (c :: s)).map (fun r => ([], r))
    else (k (c :: s)).map (fun r => ([], r))

/-- Lazy loop over class `p` followed by the rest of the pattern `k`: stops
    as soon as the rest matches, and takes one more character otherwise. -/
def loopLazy (p : Char → Bool) (k : Str → Option (List Str)) :
    Str → Option (Str × List Str)
  | [] => (k []).map (fun r => ([], r))
  | c :: s =>
    match k (c :: s) with
    | some r => some ([], r)
    | none =>
      if p c then (loopLazy p k s).map (fun wr => (c :: wr.1, wr.2)) else none

/-- Backtracking match of a node sequence against a prefix of the input.
    The result lists, node by node, the text each node consumed. -/
def matchNodes : List Node → Str → Option (List Str)
  | [], _ => some []
  | .chr p :: ns, s =>
    match s with
    | c :: s' => if p c then (matchNodes ns s').map (fun r => [c] :: r) else none
    | [] => none
  | .star p :: ns, s =>
    (loopGreedy p (matchNodes ns) s).map (fun wr => wr.1 :: wr.2)
  | .plus p :: ns, s =>
    match s with
    | c :: s' =>
      if p c then (loopGreedy p (matchNodes ns) s').map (fun wr => (c :: wr.1) :: wr.2)
      else none
    | [] => none
  | .plusLazy p :: ns, s =>
    match s with
    | c :: s' =>
      if p c then (loopLazy p (matchNodes ns) s').map (fun wr => (c :: wr.1) :: wr.2)
      else none
    | [] => none
  | .gopen :: ns, s => (matchNodes ns s).map (fun r => [] :: r)
  | .gclose :: ns, s => (matchNodes ns s).map (fun r => [] :: r)

/-- The text of the capture groups, in order, read off the per-node pieces:
    a group is what the nodes between its `(` and `)` consumed. -/
def submatches : List Node → List Str → Option Str → List Str
  | n :: ns, p :: ps, cur =>
    match n, cur with
    | .gopen, _ => submatches ns ps (some [])
    | .gclose, some acc => acc :: submatches ns ps none
    | .gclose, none => submatches ns ps none
    | _, some acc => submatches ns ps (some (acc ++ p))
    | _, none => submatches ns ps none
  | _, _, _ => []

/-- The method `FindStringSubmatch` of a compiled pattern: `none` when there
    is no match, otherwise the whole match followed by the capture groups.
    The pattern starts with `^`, so the only start offset a match can have
    is 0. -/
def FindStringSubmatch (re : List Node) (s : Str) : Option (List Str) :=
  (matchNodes re s).map (fun ps => ps.flatten :: submatches re ps none)

/-! ## parseTaskCommand -/

/-- The six results of `parseTaskCommand`. -/
structure ParseResult where
  task : Str
  deadline : Str
  assignTo : Str
  attachment : Str
  description : Str
  ok : Bool
deriving DecidableEq

/-- The function `parseTaskCommand` (main.go lines 39-45): a match has six
    submatches, whose groups are returned trimmed; otherwise the zero values. -/
def parseTaskCommand (message : Str) : ParseResult :=
  match FindStringSubmatch taskCommandRegex message with
  | some [_, m1, m2, m3, m4, m5] =>
    ⟨TrimSpace m1, TrimSpace m2, TrimSpace m3, TrimSpace m4, TrimSpace m5, true⟩
  | _ => ⟨[], [], [], [], [], false⟩

/-! ## addTaskToAirtable -/

/-- The record posted to the sink (`AirtableRecord.Fields`, main.go lines 49-57);
    the attachment is wrapped as a one-element list of `url` objects. -/
structure AirtableRecord where
  Task : Str
  Deadline : Str
  AssignTo : Str
  Attachment : List Str
  Description : Str
deriving DecidableEq

/-- What `client.Do(req)` hands back: a transport error, or a response with
    its `StatusCode` and `Status` text. -/
inductive HttpResult where
  | netError (err : Str)
  | response (StatusCode : Int) (Status : Str)
deriving DecidableEq

/-- The function `addTaskToAirtable` (main.go lines 47-72).  `clientDo` stands
    for the HTTP round trip; the result is the message of the returned
    `error`, `none` for `nil`. -/
def addTaskToAirtable (clientDo : AirtableRecord → HttpResult)
    (task deadline assignTo attachment description : Str) : Option Str :=
  let record : AirtableRecord := ⟨task, deadline, assignTo, [attachment], description⟩
  match clientDo record with
  | .netError err => some err
  | .response StatusCode Status =>
    if StatusCode ≥ 300 then some ("airtable error: ".toList ++ Status) else none

/-! ## The event handler -/

/-- The fields of `events.Message` the handler reads.  `Timestamp` is an
    instant on the time line, compared with `Before`. -/
structure MessageEvent where
  IsFromMe : Bool
  Conversation : Str
  Timestamp : Int
  PushName : Str
  SenderUser : Str
deriving DecidableEq

/-- An event delivered to the handler: a `*events.Message` or anything else. -/
inductive Event where
  | message (v : MessageEvent)
  | other
deriving DecidableEq

/-- What the handler does, in order. -/
inductive Effect where
  /-- a call `parseTaskCommand(text)` -/
  | parse (text : Str)
  /-- a line printed with `fmt.Println` -/
  | println (line : Str)
  /-- a call of `addTaskToAirtable`, with the record it posts -/
  | relay (record : AirtableRecord)
  /-- `client.SendMessage(ctx, jid, conversation)` -/
  | send (jid : Str) (text : Str)
deriving DecidableEq

/-- The closure passed to `client.AddEventHandler` (main.go lines 140-172),
    as the trace of its effects.  `parseTaskCommand` is called twice on a
    match, as in the source; the recipient of the reply is the JID parsed from
    `OwnerJID`, recorded by that string. -/
def handler (startTime : Int) (clientDo : AirtableRecord → HttpResult) (evt : Event) :
    List Effect :=
  match evt with
  | .message v =>
    if v.IsFromMe || v.Conversation == [] then []
    else if v.Timestamp < startTime then []
    else
      let text := TrimSpace v.Conversation
      if (parseTaskCommand text).ok then
        let r := parseTaskCommand text
        let err :=
          addTaskToAirtable clientDo r.task r.deadline r.assignTo r.attachment r.description
        let senderName := if v.PushName == [] then v.SenderUser else v.PushName
        let reply :=
          match err with
          | some e => senderName ++ " - ❌ Failed to add task to Airtable: ".toList ++ e
          | none => senderName ++ " - ✅ Task added: ".toList ++ r.task ++ " | ".toList ++
              r.deadline ++ " | ".toList ++ r.assignTo
        [.parse text, .parse text,
         .println ("Received valid task command: ".toList ++ text),
         .relay ⟨r.task, r.deadline, r.assignTo, [r.attachment], r.description⟩,
         .send OwnerJID reply]
      else [.parse text]
  | .other => []

/-- The messages a trace sends, as (recipient, text). -/
def sentMessages (tr : List Effect) : List (Str × Str) :=
  tr.filterMap (fun e => match e with | .send jid text => some (jid, text) | _ => none)

/-- The texts a trace passes to `parseTaskCommand`. -/
def parseCalls (tr : List Effect) : List Str :=
  tr.filterMap (fun e => match e with | .parse text => some text | _ => none)

/-- The records a trace relays to the sink. -/
def relayCalls (tr : List Effect) : List AirtableRecord :=
  tr.filterMap (fun e => match e with | .relay record => some record | _ => none)

/-! ## Session bootstrap -/

/-- An item of the QR channel (`whatsmeow.QRChannelItem`). -/
structure QRChannelItem where
  Event : Str
  Code : Str
deriving DecidableEq

/-- How the bootstrap part of `main` (lines 94-140) ends. -/
inductive Startup where
  /-- reached `client.AddEventHandler` -/
  | attached
  /-- `return` before the handler was attached -/
  | returned
  /-- `panic(err)` -/
  | panicked
deriving DecidableEq

/-- The loop `for evt := range qrChan` (main.go lines 102-115) over the items
    the channel delivers before it is closed. -/
def qrLoop : List QRChannelItem → Startup
  | [] => .attached
  | evt :: rest =>
    if evt.Event = "code".toList then qrLoop rest
    else if evt.Event = "success".toList then .attached
    else if evt.Event = "timeout".toList then .returned
    else qrLoop rest

/-- The session bootstrap of `main` (lines 94-140): `storeID` is
    `client.Store.ID`, `connectErr` the result of `client.Connect()`, `qr` the
    items of the QR channel. -/
def startup (storeID : Option Str) (connectErr : Option Str) (qr : List QRChannelItem) :
    Startup :=
  match storeID with
  | none =>
    match connectErr with
    | some _ => .panicked
    | none => qrLoop qr
  | some _ =>
    match connectErr with
    | some _ => .returned
    | none => .attached


/-! ## Predicates used to state the properties -/

/-- The shape four digits, `-`, two digits, `-`, two digits. -/
def isDate : Str → Bool
  | [y1, y2, y3, y4, s1, m1, m2, s2, d1, d2] =>
    reDigit y1 && reDigit y2 && reDigit y3 && reDigit y4 && s1 == '-' &&
    reDigit m1 && reDigit m2 && s2 == '-' && reDigit d1 && reDigit d2
  | _ => false

/-- The texts `(?i)Task` matches. -/
def isKeyword : Str → Bool
  | [c1, c2, c3, c4] => foldT c1 && foldA c2 && foldS c3 && foldK c4
  | _ => false

/-- An upper/lower-case spelling of the keyword `Task`. -/
def isTaskSpelling : Str → Bool
  | [c1, c2, c3, c4] =>
    (c1 == 'T' || c1 == 't') && (c2 == 'A' || c2 == 'a') &&
    (c3 == 'S' || c3 == 's') && (c4 == 'K' || c4 == 'k')
  | _ => false

/-- Every character of `s` is in the class `p`. -/
def allIn (p : Char → Bool) (s : Str) : Prop := ∀ c ∈ s, p c = true

/-- No leading and no trailing whitespace, whitespace being what
    `unicode.IsSpace` (hence `strings.TrimSpace`) takes for it. -/
def NoOuterSpace (s : Str) : Prop :=
  (∀ c ∈ s.head?, isSpace c = false) ∧ (∀ c ∈ s.getLast?, isSpace c = false)

/-- A text the pattern matches from its start, cut where the pattern cuts it:
    keyword, whitespace, the five groups `g1` .. `g5` with `\s*\|\s*` between
    them, and the unmatched remainder `rest`, which the greedy last group
    leaves only at a line feed. -/
def Segments (text g1 g2 g3 g4 g5 rest : Str) : Prop :=
  ∃ kw w0 w1 w2 w3 w4 w5 w6 w7 w8 : Str,
    text = kw ++ (w0 ++ (g1 ++ (w1 ++ '|' :: (w2 ++ (g2 ++ (w3 ++ '|' :: (w4 ++ (g3 ++
      (w5 ++ '|' :: (w6 ++ (g4 ++ (w7 ++ '|' :: (w8 ++ (g5 ++ rest)))))))))))))) ∧
    isKeyword kw = true ∧ w0 ≠ [] ∧ allIn reSpace w0 ∧
    allIn reSpace w1 ∧ allIn reSpace w2 ∧ allIn reSpace w3 ∧ allIn reSpace w4 ∧
    allIn reSpace w5 ∧ allIn reSpace w6 ∧ allIn reSpace w7 ∧ allIn reSpace w8 ∧
    g1 ≠ [] ∧ allIn reDot g1 ∧ isDate g2 = true ∧ g3 ≠ [] ∧ allIn reDot g3 ∧
    g4 ≠ [] ∧ allIn reNotSpace g4 ∧ g5 ≠ [] ∧ allIn reDot g5 ∧
    (∀ c ∈ rest.head?, reDot c = false)

/-! ## Soundness of the matcher -/

theorem loopGreedy_sound (p : Char → Bool) (k : Str → Option (List Str)) :
    ∀ (s w : Str) (r : List Str), loopGreedy p k s = some (w, r) →
      ∃ s', s = w ++ s' ∧ (∀ c ∈ w, p c = true) ∧ k s' = some r := by
  intro s
  induction s with
  | nil =>
    intro w r h
    simp only [loopGreedy, Option.map_eq_some', Prod.mk.injEq] at h
    obtain ⟨a, ha, rfl, rfl⟩ := h
    exact ⟨[], rfl, by simp, ha⟩
  | cons c s ih =>
    intro w r h
    simp only [loopGreedy] at h
    split at h
    · rename_i hp
      split at h
      · rename_i w' r' hrec
        simp only [Option.some.injEq, Prod.mk.injEq] at h
        obtain ⟨rfl, rfl⟩ := h
        obtain ⟨s', hs, hall, hk⟩ := ih w' r' hrec
        refine ⟨s', by simp [hs], ?_, hk⟩
        intro x hx
        rcases List.mem_cons.1 hx with rfl | hx
        · exact hp
        · exact hall x hx
      · simp only [Option.map_eq_some', Prod.mk.injEq] at h
        obtain ⟨a, ha, rfl, rfl⟩ := h
        exact ⟨c :: s, rfl, by simp, ha⟩
    · simp only [Option.map_eq_some', Prod.mk.injEq] at h
      obtain ⟨a, ha, rfl, rfl⟩ := h
      exact ⟨c :: s, rfl, by simp, ha⟩

theorem loopLazy_sound (p : Char → Bool) (k : Str → Option (List Str)) :
    ∀ (s w : Str) (r : List Str), loopLazy p k s = some (w, r) →
      ∃ s', s = w ++ s' ∧ (∀ c ∈ w, p c = true) ∧ k s' = some r := by
  intro s
  induction s with
  | nil =>
    intro w r h
    simp only [loopLazy, Option.map_eq_some', Prod.mk.injEq] at h
    obtain ⟨a, ha, rfl, rfl⟩ := h
    exact ⟨[], rfl, by simp, ha⟩
  | cons c s ih =>
    intro w r h
    simp only [loopLazy] at h
    split at h
    · rename_i r' hk
      simp only [Option.some.injEq, Prod.mk.injEq] at h
      obtain ⟨rfl, rfl⟩ := h
      exact ⟨c :: s, rfl, by simp, hk⟩
    · split at h
      · rename_i hp
        simp only [Option.map_eq_some', Prod.mk.injEq] at h
        obtain ⟨⟨w', r'⟩, hrec, rfl, rfl⟩ := h
        obtain ⟨s', hs, hall, hk⟩ := ih w' r' hrec
        refine ⟨s', by simp [hs], ?_, hk⟩
        intro x hx
        rcases List.mem_cons.1 hx with rfl | hx
        · exact hp
        · exact hall x hx
      · exact absurd h (by simp)

theorem matchNodes_chr {p : Char → Bool} {ns : List Node} {s : Str} {ps : List Str}
    (h : matchNodes (.chr p :: ns) s = some ps) :
    ∃ c s' r, s = c :: s' ∧ p c = true ∧ matchNodes ns s' = some r ∧ ps = [c] :: r := by
  cases s with
  | nil => simp [matchNodes] at h
  | cons c s' =>
    simp only [matchNodes] at h
    split at h
    · rename_i hp
      simp only [Option.map_eq_some'] at h
      obtain ⟨r, hr, rfl⟩ := h
      exact ⟨c, s', r, rfl, hp, hr, rfl⟩
    · exact absurd h (by simp)

theorem matchNodes_star {p : Char → Bool} {ns : List Node} {s : Str} {ps : List Str}
    (h : matchNodes (.star p :: ns) s = some ps) :
    ∃ w s' r, s = w ++ s' ∧ (∀ c ∈ w, p c = true) ∧ matchNodes ns s' = some r ∧
      ps = w :: r := by
  simp only [matchNodes, Option.map_eq_some'] at h
  obtain ⟨⟨w, r⟩, hl, rfl⟩ := h
  obtain ⟨s', hs, hall, hk⟩ := loopGreedy_sound p _ s w r hl
  exact ⟨w, s', r, hs, hall, hk, rfl⟩

theorem matchNodes_plus {p : Char → Bool} {ns : List Node} {s : Str} {ps : List Str}
    (h : matchNodes (.plus p :: ns) s = some ps) :
    ∃ w s' r, s = w ++ s' ∧ w ≠ [] ∧ (∀ c ∈ w, p c = true) ∧ matchNodes ns s' = some r ∧
      ps = w :: r := by
  cases s with
  | nil => simp [matchNodes] at h
  | cons c s0 =>
    simp only [matchNodes] at h
    split at h
    · rename_i hp
      simp only [Option.map_eq_some'] at h
      obtain ⟨⟨w, r⟩, hl, rfl⟩ := h
      obtain ⟨s', hs, hall, hk⟩ := loopGreedy_sound p _ s0 w r hl
      refine ⟨c :: w, s', r, by simp [hs], by simp, ?_, hk, rfl⟩
      intro x hx
      rcases List.mem_cons.1 hx with rfl | hx
      · exact hp
      · exact hall x hx
    · exact absurd h (by simp)

theorem matchNodes_plusLazy {p : Char → Bool} {ns : List Node} {s : Str} {ps : List Str}
    (h : matchNodes (.plusLazy p :: ns) s = some ps) :
    ∃ w s' r, s = w ++ s' ∧ w ≠ [] ∧ (∀ c ∈ w, p c = true) ∧ matchNodes ns s' = some r ∧
      ps = w :: r := by
  cases s with
  | nil => simp [matchNodes] at h
  | cons c s0 =>
    simp only [matchNodes] at h
    split at h
    · rename_i hp
      simp only [Option.map_eq_some'] at h
      obtain ⟨⟨w, r⟩, hl, rfl⟩ := h
      obtain ⟨s', hs, hall, hk⟩ := loopLazy_sound p _ s0 w r hl
      refine ⟨c :: w, s', r, by simp [hs], by simp, ?_, hk, rfl⟩
      intro x hx
      rcases List.mem_cons.1 hx with rfl | hx
      · exact hp
      · exact hall x hx
    · exact absurd h (by simp)

theorem matchNodes_gopen {ns : List Node} {s : Str} {ps : List Str}
    (h : matchNodes (.gopen :: ns) s = some ps) :
    ∃ r, matchNodes ns s = some r ∧ ps = [] :: r := by
  simp only [matchNodes, Option.map_eq_some'] at h
  obtain ⟨r, hr, rfl⟩ := h
  exact ⟨r, hr, rfl⟩

theorem matchNodes_gclose {ns : List Node} {s : Str} {ps : List Str}
    (h : matchNodes (.gclose :: ns) s = some ps) :
    ∃ r, matchNodes ns s = some r ∧ ps = [] :: r := by
  simp only [matchNodes, Option.map_eq_some'] at h
  obtain ⟨r, hr, rfl⟩ := h
  exact ⟨r, hr, rfl⟩


theorem matchNodes_sep {ns : List Node} {s : Str} {ps : List Str}
    (h : matchNodes (.star reSpace :: .chr (reLit '|') :: .star reSpace :: ns) s = some ps) :
    ∃ w1 w2 s' r, s = w1 ++ '|' :: (w2 ++ s') ∧ (∀ c ∈ w1, reSpace c = true) ∧
      (∀ c ∈ w2, reSpace c = true) ∧ matchNodes ns s' = some r ∧
      ps = w1 :: ['|'] :: w2 :: r := by
  obtain ⟨w1, s1, r1, rfl, hw1, h1, rfl⟩ := matchNodes_star h
  obtain ⟨c, s2, r2, rfl, hc, h2, rfl⟩ := matchNodes_chr h1
  obtain ⟨w2, s3, r3, rfl, hw2, h3, rfl⟩ := matchNodes_star h2
  have : c = '|' := by simpa [reLit] using hc
  subst this
  exact ⟨w1, w2, s3, r3, rfl, hw1, hw2, h3, rfl⟩

theorem matchNodes_groupLazy {p : Char → Bool} {ns : List Node} {s : Str} {ps : List Str}
    (h : matchNodes (.gopen :: .plusLazy p :: .gclose :: ns) s = some ps) :
    ∃ g s' r, s = g ++ s' ∧ g ≠ [] ∧ (∀ c ∈ g, p c = true) ∧ matchNodes ns s' = some r ∧
      ps = [] :: g :: [] :: r := by
  obtain ⟨r1, h1, rfl⟩ := matchNodes_gopen h
  obtain ⟨g, s', r2, rfl, hne, hg, h2, rfl⟩ := matchNodes_plusLazy h1
  obtain ⟨r3, h3, rfl⟩ := matchNodes_gclose h2
  exact ⟨g, s', r3, rfl, hne, hg, h3, rfl⟩

theorem matchNodes_groupGreedy {p : Char → Bool} {ns : List Node} {s : Str} {ps : List Str}
    (h : matchNodes (.gopen :: .plus p :: .gclose :: ns) s = some ps) :
    ∃ g s' r, s = g ++ s' ∧ g ≠ [] ∧ (∀ c ∈ g, p c = true) ∧ matchNodes ns s' = some r ∧
      ps = [] :: g :: [] :: r := by
  obtain ⟨r1, h1, rfl⟩ := matchNodes_gopen h
  obtain ⟨g, s', r2, rfl, hne, hg, h2, rfl⟩ := matchNodes_plus h1
  obtain ⟨r3, h3, rfl⟩ := matchNodes_gclose h2
  exact ⟨g, s', r3, rfl, hne, hg, h3, rfl⟩

theorem loopGreedy_total (p : Char → Bool) (k : Str → Option (List Str))
    (hk : ∀ s, ∃ r, k s = some r) : ∀ s, ∃ wr, loopGreedy p k s = some wr := by
  intro s
  induction s with
  | nil =>
    obtain ⟨r, hr⟩ := hk []
    exact ⟨([], r), by simp [loopGreedy, hr]⟩
  | cons c s ih =>
    obtain ⟨r, hr⟩ := hk (c :: s)
    obtain ⟨⟨w, r'⟩, hwr⟩ := ih
    by_cases hp : p c = true
    · exact ⟨(c :: w, r'), by simp [loopGreedy, hp, hwr]⟩
    · exact ⟨([], r), by simp [loopGreedy, hp, hr]⟩

theorem loopGreedy_max (p : Char → Bool) (k : Str → Option (List Str))
    (hk : ∀ s, ∃ r, k s = some r) :
    ∀ (s w : Str) (r : List Str), loopGreedy p k s = some (w, r) →
      ∃ s', s = w ++ s' ∧ (∀ x ∈ s'.head?, p x = false) := by
  intro s
  induction s with
  | nil =>
    intro w r h
    simp only [loopGreedy, Option.map_eq_some', Prod.mk.injEq] at h
    obtain ⟨a, _, rfl, rfl⟩ := h
    exact ⟨[], rfl, by simp⟩
  | cons c s ih =>
    intro w r h
    by_cases hp : p c = true
    · obtain ⟨⟨w', r'⟩, hwr⟩ := loopGreedy_total p k hk s
      simp only [loopGreedy, hp, hwr, if_true, Option.some.injEq, Prod.mk.injEq] at h
      obtain ⟨rfl, rfl⟩ := h
      obtain ⟨s', hs, hmax⟩ := ih w' r' hwr
      exact ⟨s', by simp [hs], hmax⟩
    · have hp' : p c = false := by simpa using hp
      simp only [loopGreedy, hp', Bool.false_eq_true, if_false, Option.map_eq_some',
        Prod.mk.injEq] at h
      obtain ⟨a, _, rfl, rfl⟩ := h
      exact ⟨c :: s, rfl, by simpa using hp'⟩

theorem matchNodes_plus_max {p : Char → Bool} {ns : List Node} {s : Str} {ps : List Str}
    (hns : ∀ s, ∃ r, matchNodes ns s = some r)
    (h : matchNodes (.plus p :: ns) s = some ps) :
    ∃ w s' r, s = w ++ s' ∧ w ≠ [] ∧ (∀ c ∈ w, p c = true) ∧
      (∀ x ∈ s'.head?, p x = false) ∧ matchNodes ns s' = some r ∧
      ps = w :: r := by
  cases s with
  | nil => simp [matchNodes] at h
  | cons c s0 =>
    simp only [matchNodes] at h
    split at h
    · rename_i hp
      simp only [Option.map_eq_some'] at h
      obtain ⟨⟨w, r⟩, hl, rfl⟩ := h
      obtain ⟨s', hs, hall, hr⟩ := loopGreedy_sound p _ s0 w r hl
      obtain ⟨s'', hs2, hmax⟩ := loopGreedy_max p _ hns s0 w r hl
      have : s' = s'' := List.append_cancel_left (hs.symm.trans hs2)
      subst this
      refine ⟨c :: w, s', r, by simp [hs], by simp, ?_, hmax, hr, rfl⟩
      intro x hx
      rcases List.mem_cons.1 hx with rfl | hx
      · exact hp
      · exact hall x hx
    · exact absurd h (by simp)

theorem matchNodes_lastGroup {p : Char → Bool} {s : Str} {ps : List Str}
    (h : matchNodes [.gopen, .plus p, .gclose] s = some ps) :
    ∃ g rest, s = g ++ rest ∧ g ≠ [] ∧ (∀ c ∈ g, p c = true) ∧
      (∀ x ∈ rest.head?, p x = false) ∧ ps = [[], g, []] := by
  obtain ⟨r1, h1, rfl⟩ := matchNodes_gopen h
  have hns : ∀ s, ∃ r, matchNodes [.gclose] s = some r := fun s => ⟨[[]], by simp [matchNodes]⟩
  obtain ⟨g, rest, r, rfl, hne, hg, hmax, hr, rfl⟩ := matchNodes_plus_max hns h1
  simp only [matchNodes, Option.map_some', Option.some.injEq] at hr
  subst hr
  exact ⟨g, rest, rfl, hne, hg, hmax, rfl⟩


theorem matchNodes_date {ns : List Node} {s : Str} {ps : List Str}
    (h : matchNodes (.gopen :: .chr reDigit :: .chr reDigit :: .chr reDigit :: .chr reDigit ::
      .chr (reLit '-') :: .chr reDigit :: .chr reDigit :: .chr (reLit '-') ::
      .chr reDigit :: .chr reDigit :: .gclose :: ns) s = some ps) :
    ∃ y1 y2 y3 y4 s1 m1 m2 s2 d1 d2 s' r,
      s = [y1, y2, y3, y4, s1, m1, m2, s2, d1, d2] ++ s' ∧
      isDate [y1, y2, y3, y4, s1, m1, m2, s2, d1, d2] = true ∧
      matchNodes ns s' = some r ∧
      ps = [] :: [y1] :: [y2] :: [y3] :: [y4] :: [s1] :: [m1] :: [m2] :: [s2] :: [d1] ::
        [d2] :: [] :: r := by
  obtain ⟨r0, h0, rfl⟩ := matchNodes_gopen h
  obtain ⟨y1, t1, r1, rfl, p1, h1, rfl⟩ := matchNodes_chr h0
  obtain ⟨y2, t2, r2, rfl, p2, h2, rfl⟩ := matchNodes_chr h1
  obtain ⟨y3, t3, r3, rfl, p3, h3, rfl⟩ := matchNodes_chr h2
  obtain ⟨y4, t4, r4, rfl, p4, h4, rfl⟩ := matchNodes_chr h3
  obtain ⟨s1, t5, r5, rfl, p5, h5, rfl⟩ := matchNodes_chr h4
  obtain ⟨m1, t6, r6, rfl, p6, h6, rfl⟩ := matchNodes_chr h5
  obtain ⟨m2, t7, r7, rfl, p7, h7, rfl⟩ := matchNodes_chr h6
  obtain ⟨s2, t8, r8, rfl, p8, h8, rfl⟩ := matchNodes_chr h7
  obtain ⟨d1, t9, r9, rfl, p9, h9, rfl⟩ := matchNodes_chr h8
  obtain ⟨d2, t10, r10, rfl, p10, h10, rfl⟩ := matchNodes_chr h9
  obtain ⟨r11, h11, rfl⟩ := matchNodes_gclose h10
  refine ⟨y1, y2, y3, y4, s1, m1, m2, s2, d1, d2, t10, r11, rfl, ?_, h11, rfl⟩
  simp only [reLit, decide_eq_true_eq] at p5 p8
  subst p5 p8
  simp [isDate, p1, p2, p3, p4, p6, p7, p9, p10]

/-- Soundness of the matcher on the pattern: a match cuts the text into the
    segments of the grammar, and the groups are the texts of `g1` .. `g5`. -/
theorem FindStringSubmatch_segments {text : Str} {ms : List Str}
    (h : FindStringSubmatch taskCommandRegex text = some ms) :
    ∃ m0 g1 g2 g3 g4 g5 rest, ms = [m0, g1, g2, g3, g4, g5] ∧
      Segments text g1 g2 g3 g4 g5 rest := by
  simp only [FindStringSubmatch, Option.map_eq_some'] at h
  obtain ⟨ps, hps, rfl⟩ := h
  have hm := hps
  simp only [taskCommandRegex, sepNodes, dateNodes, List.cons_append, List.nil_append,
    List.append_assoc] at hm
  obtain ⟨c1, t1, r1, rfl, p1, h1, rfl⟩ := matchNodes_chr hm
  obtain ⟨c2, t2, r2, rfl, p2, h2, rfl⟩ := matchNodes_chr h1
  obtain ⟨c3, t3, r3, rfl, p3, h3, rfl⟩ := matchNodes_chr h2
  obtain ⟨c4, t4, r4, rfl, p4, h4, rfl⟩ := matchNodes_chr h3
  obtain ⟨w0, t5, r5, rfl, hw0ne, hw0, h5, rfl⟩ := matchNodes_plus h4
  obtain ⟨g1, t6, r6, rfl, hg1ne, hg1, h6, rfl⟩ := matchNodes_groupLazy h5
  obtain ⟨w1, w2, t7, r7, rfl, hw1, hw2, h7, rfl⟩ := matchNodes_sep h6
  obtain ⟨y1, y2, y3, y4, s1, m1, m2, s2, d1, d2, t8, r8, rfl, hdate, h8, rfl⟩ :=
    matchNodes_date h7
  obtain ⟨w3, w4, t9, r9, rfl, hw3, hw4, h9, rfl⟩ := matchNodes_sep h8
  obtain ⟨g3, t10, r10, rfl, hg3ne, hg3, h10, rfl⟩ := matchNodes_groupLazy h9
  obtain ⟨w5, w6, t11, r11, rfl, hw5, hw6, h11, rfl⟩ := matchNodes_sep h10
  obtain ⟨g4, t12, r12, rfl, hg4ne, hg4, h12, rfl⟩ := matchNodes_groupGreedy h11
  obtain ⟨w7, w8, t13, r13, rfl, hw7, hw8, h13, rfl⟩ := matchNodes_sep h12
  obtain ⟨g5, rest, rfl, hg5ne, hg5, hrest, rfl⟩ := matchNodes_lastGroup h13
  simp only [taskCommandRegex, sepNodes, dateNodes, submatches, List.cons_append,
    List.nil_append, List.append_assoc, List.append_nil]
  refine ⟨_, _, _, _, _, _, rest, rfl, ?_⟩
  refine ⟨[c1, c2, c3, c4], w0, w1, w2, w3, w4, w5, w6, w7, w8, by simp, ?_, hw0ne, hw0,
    hw1, hw2, hw3, hw4, hw5, hw6, hw7, hw8, hg1ne, hg1, hdate, hg3ne, hg3, hg4ne, hg4,
    hg5ne, hg5, hrest⟩
  simp [isKeyword, p1, p2, p3, p4]

/-- A successful parse returns the trimmed groups of a text cut into segments. -/
theorem parseTaskCommand_ok {text : Str} (h : (parseTaskCommand text).ok = true) :
    ∃ g1 g2 g3 g4 g5 rest, Segments text g1 g2 g3 g4 g5 rest ∧
      parseTaskCommand text =
        ⟨TrimSpace g1, TrimSpace g2, TrimSpace g3, TrimSpace g4, TrimSpace g5, true⟩ := by
  unfold parseTaskCommand at h ⊢
  cases hf : FindStringSubmatch taskCommandRegex text with
  | none => rw [hf] at h; simp at h
  | some ms =>
    obtain ⟨m0, g1, g2, g3, g4, g5, rest, rfl, hseg⟩ := FindStringSubmatch_segments hf
    exact ⟨g1, g2, g3, g4, g5, rest, hseg, rfl⟩


/-! ### The matcher on texts built from the grammar -/

theorem reSpace_isSpace {c : Char} (h : reSpace c = true) : isSpace c = true := by
  simp only [reSpace, Bool.decide_or, Bool.or_eq_true, decide_eq_true_eq] at h
  rcases h with rfl | rfl | rfl | rfl | rfl <;> decide

theorem not_reSpace_of_not_isSpace {c : Char} (h : isSpace c = false) : reSpace c = false := by
  cases hr : reSpace c with
  | false => rfl
  | true => rw [reSpace_isSpace hr] at h; exact absurd h (by simp)

theorem loopGreedy_take (p : Char → Bool) (k : Str → Option (List Str)) (s' : Str)
    (r : List Str) (hs' : ∀ x ∈ s'.head?, p x = false) (hk : k s' = some r) :
    ∀ w : Str, allIn p w → loopGreedy p k (w ++ s') = some (w, r) := by
  intro w
  induction w with
  | nil =>
    intro _
    cases s' with
    | nil => simp [loopGreedy, hk]
    | cons c t =>
      have hc : p c = false := hs' c (by simp)
      simp [loopGreedy, hc, hk]
  | cons c w ih =>
    intro hw
    have hc : p c = true := hw c (by simp)
    have hw' : allIn p w := fun x hx => hw x (by simp [hx])
    simp [loopGreedy, hc, ih hw']

theorem loopLazy_take (p : Char → Bool) (k : Str → Option (List Str)) (s' : Str)
    (r : List Str) (hk : k s' = some r) :
    ∀ w : Str, allIn p w → (∀ u v, w = u ++ v → v ≠ [] → k (v ++ s') = none) →
      loopLazy p k (w ++ s') = some (w, r) := by
  intro w
  induction w with
  | nil =>
    intro _ _
    cases s' with
    | nil => simp [loopLazy, hk]
    | cons c t => simp [loopLazy, hk]
  | cons c w ih =>
    intro hw hfail
    have hc : p c = true := hw c (by simp)
    have hw' : allIn p w := fun x hx => hw x (by simp [hx])
    have h0 : k (c :: (w ++ s')) = none := hfail [] (c :: w) rfl (by simp)
    have hrec := ih hw' (fun u v huv hv => hfail (c :: u) v (by simp [huv]) hv)
    simp [loopLazy, h0, hc, hrec]

/-- The separator cannot start inside a pipe-free text that ends in a
    character outside `\s`. -/
theorem sep_fail (ns : List Node) (v tail : Str) (hv : v ≠ []) (hpipe : '|' ∉ v)
    (hlast : ∀ c ∈ v.getLast?, reSpace c = false) :
    matchNodes (.gclose :: .star reSpace :: .chr (reLit '|') :: ns) (v ++ tail) = none := by
  cases hm : matchNodes (.gclose :: .star reSpace :: .chr (reLit '|') :: ns) (v ++ tail) with
  | none => rfl
  | some ps =>
    exfalso
    obtain ⟨r0, h0, -⟩ := matchNodes_gclose hm
    obtain ⟨w, s1, r1, hws, hw, h1, -⟩ := matchNodes_star h0
    obtain ⟨c, s2, r2, rfl, hc, -, -⟩ := matchNodes_chr h1
    have hcp : c = '|' := by simpa [reLit] using hc
    subst hcp
    have hl : v.getLast hv ∈ v := List.getLast_mem hv
    have hlast' : reSpace (v.getLast hv) = false :=
      hlast _ (by simp [List.getLast?_eq_getLast _ hv])
    rcases List.append_eq_append_iff.1 hws with ⟨a', rfl, -⟩ | ⟨c', rfl, hc'⟩
    · have := hw (v.getLast hv) (by simp [hl])
      rw [this] at hlast'
      exact absurd hlast' (by simp)
    · cases c' with
      | nil =>
        have := hw ((w ++ []).getLast hv) (by simp)
        rw [this] at hlast'
        exact absurd hlast' (by simp)
      | cons x c'' =>
        simp only [List.cons_append, List.cons.injEq] at hc'
        obtain ⟨rfl, -⟩ := hc'
        exact hpipe (by simp)

theorem chr_match {p : Char → Bool} {ns : List Node} {c : Char} {s : Str} {r : List Str}
    (hc : p c = true) (hr : matchNodes ns s = some r) :
    matchNodes (.chr p :: ns) (c :: s) = some ([c] :: r) := by
  simp [matchNodes, hc, hr]

theorem star_match {p : Char → Bool} {ns : List Node} {w s : Str} {r : List Str}
    (hw : allIn p w) (hs : ∀ x ∈ s.head?, p x = false) (hr : matchNodes ns s = some r) :
    matchNodes (.star p :: ns) (w ++ s) = some (w :: r) := by
  simp [matchNodes, loopGreedy_take p _ s r hs hr w hw]

theorem plus_match {p : Char → Bool} {ns : List Node} {c : Char} {w s : Str} {r : List Str}
    (hc : p c = true) (hw : allIn p w) (hs : ∀ x ∈ s.head?, p x = false)
    (hr : matchNodes ns s = some r) :
    matchNodes (.plus p :: ns) (c :: (w ++ s)) = some ((c :: w) :: r) := by
  simp [matchNodes, hc, loopGreedy_take p _ s r hs hr w hw]

theorem plusLazy_match {p : Char → Bool} {ns : List Node} {c : Char} {s w : Str}
    {r : List Str} (hc : p c = true) (hl : loopLazy p (matchNodes ns) s = some (w, r)) :
    matchNodes (.plusLazy p :: ns) (c :: s) = some ((c :: w) :: r) := by
  simp [matchNodes, hc, hl]

theorem gopen_match {ns : List Node} {s : Str} {r : List Str}
    (hr : matchNodes ns s = some r) : matchNodes (.gopen :: ns) s = some ([] :: r) := by
  simp [matchNodes, hr]

theorem gclose_match {ns : List Node} {s : Str} {r : List Str}
    (hr : matchNodes ns s = some r) : matchNodes (.gclose :: ns) s = some ([] :: r) := by
  simp [matchNodes, hr]

/-- The separator `\s*\|\s*` on the text ` | ` followed by a segment that
    does not start with a `\s` character. -/
theorem sep_match {ns : List Node} {y : Str} {r : List Str}
    (hy : ∀ x ∈ y.head?, reSpace x = false) (hr : matchNodes ns y = some r) :
    matchNodes (.star reSpace :: .chr (reLit '|') :: .star reSpace :: ns)
      (' ' :: '|' :: ' ' :: y) = some ([' '] :: ['|'] :: [' '] :: r) := by
  have h3 : matchNodes (.star reSpace :: ns) ([' '] ++ y) = some ([' '] :: r) :=
    star_match (by intro x hx; simp at hx; subst hx; decide) hy hr
  have h2 := chr_match (p := reLit '|') (c := '|') (by decide) h3
  exact star_match (w := [' ']) (by intro x hx; simp at hx; subst hx; decide)
    (by intro x hx; simp at hx; subst hx; decide) h2

/-- A lazy group `(.+?)` before a separator takes a pipe-free segment that
    ends outside `\s` whole: every earlier stop fails at the separator. -/
theorem groupLazy_match {ns : List Node} {g tail : Str} {r : List Str}
    (hg : g ≠ []) (hdot : allIn reDot g) (hpipe : '|' ∉ g)
    (hlast : ∀ c ∈ g.getLast?, reSpace c = false)
    (hr : matchNodes (.star reSpace :: .chr (reLit '|') :: ns) tail = some r) :
    matchNodes (.gopen :: .plusLazy reDot :: .gclose :: .star reSpace ::
      .chr (reLit '|') :: ns) (g ++ tail) = some ([] :: g :: [] :: r) := by
  cases g with
  | nil => exact absurd rfl hg
  | cons c g' =>
    have hc : reDot c = true := hdot c (by simp)
    have hg' : allIn reDot g' := fun x hx => hdot x (by simp [hx])
    have hfail : ∀ u v, g' = u ++ v → v ≠ [] →
        matchNodes (.gclose :: .star reSpace :: .chr (reLit '|') :: ns) (v ++ tail) = none := by
      intro u v huv hv
      refine sep_fail ns v tail hv ?_ ?_
      · intro hmem
        exact hpipe (by simp [huv, hmem])
      · intro x hx
        refine hlast x ?_
        have : (c :: g').getLast? = v.getLast? := by
          rw [huv, ← List.cons_append, List.getLast?_append_of_ne_nil _ hv]
        rw [this]
        exact hx
    have hl := loopLazy_take reDot _ tail ([] :: r) (gclose_match hr) g' hg' hfail
    exact gopen_match (plusLazy_match hc hl)

/-- A greedy group `(x+)` takes a segment of its class whole when the text
    after it does not continue the class. -/
theorem groupGreedy_match {p : Char → Bool} {ns : List Node} {g tail : Str} {r : List Str}
    (hg : g ≠ []) (hall : allIn p g) (htail : ∀ x ∈ tail.head?, p x = false)
    (hr : matchNodes ns tail = some r) :
    matchNodes (.gopen :: .plus p :: .gclose :: ns) (g ++ tail) = some ([] :: g :: [] :: r) := by
  cases g with
  | nil => exact absurd rfl hg
  | cons c g' =>
    have hc : p c = true := hall c (by simp)
    have hg' : allIn p g' := fun x hx => hall x (by simp [hx])
    exact gopen_match (plus_match hc hg' htail (gclose_match hr))


/-! ### Trimming -/

theorem TrimSpace_eq_self {s : Str} (h : NoOuterSpace s) : TrimSpace s = s := by
  unfold TrimSpace
  have h1 : s.dropWhile isSpace = s := by
    rw [List.dropWhile_eq_self_iff]
    intro hl
    have := h.1 (s.get ⟨0, hl⟩) (by
      cases s with
      | nil => simp at hl
      | cons c s => simp)
    simpa using this
  rw [h1, List.rdropWhile_eq_self_iff]
  intro hl
  have := h.2 (s.getLast hl) (by simp [List.getLast?_eq_getLast _ hl])
  simp [this]

theorem reDigit_toNat {c : Char} (h : reDigit c = true) : 48 ≤ c.toNat ∧ c.toNat ≤ 57 := by
  simp only [reDigit, Bool.decide_and, Bool.and_eq_true, decide_eq_true_eq] at h
  obtain ⟨h1, h2⟩ := h
  have h1' : ('0' : Char).toNat ≤ c.toNat := h1
  have h2' : c.toNat ≤ ('9' : Char).toNat := h2
  exact ⟨h1', h2'⟩

theorem reDigit_not_isSpace {c : Char} (h : reDigit c = true) : isSpace c = false := by
  obtain ⟨h1, h2⟩ := reDigit_toNat h
  simp only [isSpace, Bool.decide_or, Bool.decide_and, Bool.or_eq_false_iff,
    Bool.and_eq_false_imp, decide_eq_true_eq, decide_eq_false_iff_not]
  omega

theorem isDate_cases {d : Str} (h : isDate d = true) :
    ∃ y1 y2 y3 y4 m1 m2 d1 d2, d = [y1, y2, y3, y4, '-', m1, m2, '-', d1, d2] ∧
      reDigit y1 = true ∧ reDigit y2 = true ∧ reDigit y3 = true ∧ reDigit y4 = true ∧
      reDigit m1 = true ∧ reDigit m2 = true ∧ reDigit d1 = true ∧ reDigit d2 = true := by
  unfold isDate at h
  split at h
  · rename_i y1 y2 y3 y4 s1 m1 m2 s2 d1 d2
    simp only [Bool.and_eq_true, beq_iff_eq] at h
    obtain ⟨⟨⟨⟨⟨⟨⟨⟨⟨a1, a2⟩, a3⟩, a4⟩, rfl⟩, a5⟩, a6⟩, rfl⟩, a7⟩, a8⟩ := h
    exact ⟨y1, y2, y3, y4, m1, m2, d1, d2, rfl, a1, a2, a3, a4, a5, a6, a7, a8⟩
  · exact absurd h (by simp)

theorem isDate_noOuterSpace {d : Str} (h : isDate d = true) : NoOuterSpace d := by
  obtain ⟨y1, y2, y3, y4, m1, m2, d1, d2, rfl, a1, -, -, -, -, -, -, a8⟩ := isDate_cases h
  constructor
  · intro c hc
    simp at hc
    subst hc
    exact reDigit_not_isSpace a1
  · intro c hc
    simp at hc
    subst hc
    exact reDigit_not_isSpace a8

theorem noOuterSpace_of_all {s : Str} (h : ∀ c ∈ s, isSpace c = false) : NoOuterSpace s :=
  ⟨fun c hc => h c (List.mem_of_mem_head? hc), fun c hc => h c (List.mem_of_mem_getLast? hc)⟩


theorem isTaskSpelling_cases {kw : Str} (h : isTaskSpelling kw = true) :
    ∃ c1 c2 c3 c4, kw = [c1, c2, c3, c4] ∧ foldT c1 = true ∧ foldA c2 = true ∧
      foldS c3 = true ∧ foldK c4 = true := by
  unfold isTaskSpelling at h
  split at h
  · rename_i c1 c2 c3 c4
    simp only [Bool.and_eq_true, Bool.or_eq_true, beq_iff_eq] at h
    obtain ⟨⟨⟨h1, h2⟩, h3⟩, h4⟩ := h
    refine ⟨c1, c2, c3, c4, rfl, ?_, ?_, ?_, ?_⟩
    · rcases h1 with rfl | rfl <;> decide
    · rcases h2 with rfl | rfl <;> decide
    · rcases h3 with rfl | rfl <;> decide
    · rcases h4 with rfl | rfl <;> decide
  · exact absurd h (by simp)

theorem head_not_reSpace {s tail : Str} (hs : s ≠ []) (h : NoOuterSpace s) :
    ∀ x ∈ (s ++ tail).head?, reSpace x = false := by
  intro x hx
  cases s with
  | nil => exact absurd rfl hs
  | cons c s' =>
    simp at hx
    subst hx
    exact not_reSpace_of_not_isSpace (h.1 _ (by simp))

theorem allIn_reDot {s : Str} (h : '\n' ∉ s) : allIn reDot s := by
  intro c hc
  simp only [reDot, Bool.not_eq_true', decide_eq_false_iff_not]
  rintro rfl
  exact h hc

/-- The match of the pattern on a well-formed command. -/
theorem FindStringSubmatch_wellFormed (kw n d a t x : Str)
    (hkw : isTaskSpelling kw = true)
    (hn : n ≠ []) (hnp : '|' ∉ n) (hnl : '\n' ∉ n) (hns : NoOuterSpace n)
    (hd : isDate d = true)
    (ha : a ≠ []) (hap : '|' ∉ a) (hal : '\n' ∉ a) (has : NoOuterSpace a)
    (ht : t ≠ []) (hts : ∀ c ∈ t, isSpace c = false)
    (hx : x ≠ []) (hxl : '\n' ∉ x) (hxs : NoOuterSpace x) :
    FindStringSubmatch taskCommandRegex
      (kw ++ " ".toList ++ n ++ " | ".toList ++ d ++ " | ".toList ++ a ++
        " | ".toList ++ t ++ " | ".toList ++ x) =
      some [kw ++ " ".toList ++ n ++ " | ".toList ++ d ++ " | ".toList ++ a ++
        " | ".toList ++ t ++ " | ".toList ++ x, n, d, a, t, x] := by
  obtain ⟨c1, c2, c3, c4, rfl, k1, k2, k3, k4⟩ := isTaskSpelling_cases hkw
  have hds := isDate_noOuterSpace hd
  obtain ⟨y1, y2, y3, y4, m1, m2, d1, d2, rfl, a1, a2, a3, a4, a5, a6, a7, a8⟩ :=
    isDate_cases hd
  have e1 : " ".toList = [' '] := rfl
  have e3 : " | ".toList = [' ', '|', ' '] := rfl
  have hlit : reLit '-' '-' = true := by decide
  have h5 : matchNodes [.gopen, .plus reDot, .gclose] (x ++ []) = some [[], x, []] :=
    groupGreedy_match hx (allIn_reDot hxl) (by simp) (by simp [matchNodes])
  rw [List.append_nil] at h5
  have hx0 : ∀ c ∈ x.head?, reSpace c = false := by
    have := @head_not_reSpace x [] hx hxs
    simpa using this
  have h4s := sep_match hx0 h5
  have h4 := groupGreedy_match (p := reNotSpace) ht
    (fun c hc => by simp [reNotSpace, not_reSpace_of_not_isSpace (hts c hc)])
    (by intro c hc; simp at hc; subst hc; decide) h4s
  have h3s := sep_match (head_not_reSpace ht (noOuterSpace_of_all hts)) h4
  have h3 := groupLazy_match ha (allIn_reDot hal) hap
    (fun c hc => not_reSpace_of_not_isSpace (has.2 c hc)) h3s
  have h2s := sep_match (head_not_reSpace ha has) h3
  have h2 := gopen_match (chr_match a1 (chr_match a2 (chr_match a3 (chr_match a4
    (chr_match hlit (chr_match a5 (chr_match a6 (chr_match hlit (chr_match a7
    (chr_match a8 (gclose_match h2s)))))))))))
  have h1s := sep_match (y := [y1, y2, y3, y4, '-', m1, m2, '-', d1, d2] ++ _)
    (by intro c hc; simp at hc; subst hc
        exact not_reSpace_of_not_isSpace (reDigit_not_isSpace a1)) h2
  have h1 := groupLazy_match hn (allIn_reDot hnl) hnp
    (fun c hc => not_reSpace_of_not_isSpace (hns.2 c hc)) h1s
  have h0 := plus_match (p := reSpace) (c := ' ') (w := []) (by decide)
    (by intro c hc; simp at hc) (head_not_reSpace hn hns) h1
  have hk := chr_match k1 (chr_match k2 (chr_match k3 (chr_match k4 h0)))
  have hk' : matchNodes taskCommandRegex _ = _ := hk
  simp only [List.nil_append, List.cons_append] at hk'
  simp only [FindStringSubmatch, e1, e3, List.append_assoc, List.cons_append,
    List.nil_append]
  rw [hk']
  simp [taskCommandRegex, sepNodes, dateNodes, submatches]


/-- C1: `parseTaskCommand` returns exactly the segments of a well-formed
    command.  For a keyword `kw` spelled in upper or lower case, a name `n`
    and an assignee `a` that are non-empty, free of `|` and of line feeds and
    without leading or trailing whitespace, a date `d` of the shape 4-2-2
    digits, a token `t` that is non-empty and has no whitespace and no `|`,
    and a description `x` that is non-empty, free of line feeds and without
    leading or trailing whitespace, parsing
    `kw n | d | a | t | x` yields `(n, d, a, t, x, true)`.  Whitespace is
    what `unicode.IsSpace` takes for it, as `strings.TrimSpace` does. -/
theorem parseTaskCommand_wellFormed (kw n d a t x : Str)
    (hkw : isTaskSpelling kw = true)
    (hn : n ≠ []) (hnp : '|' ∉ n) (hnl : '\n' ∉ n) (hns : NoOuterSpace n)
    (hd : isDate d = true)
    (ha : a ≠ []) (hap : '|' ∉ a) (hal : '\n' ∉ a) (has : NoOuterSpace a)
    (ht : t ≠ []) (hts : ∀ c ∈ t, isSpace c = false) (_htp : '|' ∉ t)
    (hx : x ≠ []) (hxl : '\n' ∉ x) (hxs : NoOuterSpace x) :
    parseTaskCommand (kw ++ " ".toList ++ n ++ " | ".toList ++ d ++ " | ".toList ++ a ++
      " | ".toList ++ t ++ " | ".toList ++ x) = ⟨n, d, a, t, x, true⟩ := by
  unfold parseTaskCommand
  rw [FindStringSubmatch_wellFormed kw n d a t x hkw hn hnp hnl hns hd ha hap hal has ht hts
    hx hxl hxs]
  simp only []
  rw [TrimSpace_eq_self hns, TrimSpace_eq_self (isDate_noOuterSpace hd), TrimSpace_eq_self has,
    TrimSpace_eq_self (noOuterSpace_of_all hts), TrimSpace_eq_self hxs]

/-- The well-formed example of the spec, through `parseTaskCommand_wellFormed`. -/
theorem parseTaskCommand_wellFormed_witness :
    parseTaskCommand "Task Buy milk | 2025-03-01 | Alice | http://x/y | pick 2% fat".toList =
      ⟨"Buy milk".toList, "2025-03-01".toList, "Alice".toList, "http://x/y".toList,
        "pick 2% fat".toList, true⟩ :=
  parseTaskCommand_wellFormed "Task".toList "Buy milk".toList "2025-03-01".toList
    "Alice".toList "http://x/y".toList "pick 2% fat".toList
    (by decide) (by decide) (by decide) (by decide) (by unfold NoOuterSpace; decide)
    (by decide) (by decide) (by decide) (by decide) (by unfold NoOuterSpace; decide)
    (by decide) (by decide) (by decide)
    (by decide) (by decide) (by unfold NoOuterSpace; decide)


/-! ### Pipes -/

theorem split_unique {a a' b b' : Str} (ha : '|' ∉ a) (ha' : '|' ∉ a')
    (h : a ++ '|' :: b = a' ++ '|' :: b') : a = a' ∧ b = b' := by
  induction a generalizing a' with
  | nil =>
    cases a' with
    | nil => simpa using h
    | cons c a'' =>
      simp only [List.nil_append, List.cons_append, List.cons.injEq] at h
      exact absurd (h.1 ▸ List.mem_cons_self _ _) ha'
  | cons c a ih =>
    cases a' with
    | nil =>
      simp only [List.nil_append, List.cons_append, List.cons.injEq] at h
      exact absurd (h.1 ▸ List.mem_cons_self _ _) ha
    | cons c' a'' =>
      simp only [List.cons_append, List.cons.injEq] at h
      obtain ⟨rfl, h⟩ := h
      obtain ⟨rfl, rfl⟩ := ih (fun hm => ha (List.mem_cons_of_mem _ hm))
        (fun hm => ha' (List.mem_cons_of_mem _ hm)) h
      exact ⟨rfl, rfl⟩

theorem noPipe_of_reSpace {w : Str} (h : allIn reSpace w) : '|' ∉ w := by
  intro hm
  have := h _ hm
  exact absurd this (by decide)

theorem noPipe_of_isKeyword {kw : Str} (h : isKeyword kw = true) : '|' ∉ kw := by
  unfold isKeyword at h
  split at h
  · rename_i c1 c2 c3 c4
    simp only [Bool.and_eq_true] at h
    obtain ⟨⟨⟨h1, h2⟩, h3⟩, h4⟩ := h
    intro hm
    simp only [List.mem_cons, List.mem_singleton, List.not_mem_nil, or_false] at hm
    rcases hm with rfl | rfl | rfl | rfl
    · exact absurd h1 (by decide)
    · exact absurd h2 (by decide)
    · exact absurd h3 (by decide)
    · exact absurd h4 (by decide)
  · exact absurd h (by simp)

theorem noPipe_of_isDate {d : Str} (h : isDate d = true) : '|' ∉ d := by
  obtain ⟨y1, y2, y3, y4, m1, m2, d1, d2, rfl, a1, a2, a3, a4, a5, a6, a7, a8⟩ :=
    isDate_cases h
  intro hm
  simp only [List.mem_cons, List.mem_singleton, List.not_mem_nil, or_false] at hm
  rcases hm with rfl | rfl | rfl | rfl | hm | rfl | rfl | hm | rfl | rfl
  · exact absurd a1 (by decide)
  · exact absurd a2 (by decide)
  · exact absurd a3 (by decide)
  · exact absurd a4 (by decide)
  · exact absurd hm (by decide)
  · exact absurd a5 (by decide)
  · exact absurd a6 (by decide)
  · exact absurd hm (by decide)
  · exact absurd a7 (by decide)
  · exact absurd a8 (by decide)

theorem count_pipe_zero {s : Str} (h : '|' ∉ s) : s.count '|' = 0 :=
  List.count_eq_zero_of_not_mem h

theorem noPipe_of_count {s : Str} (h : s.count '|' = 0) : '|' ∉ s :=
  List.count_eq_zero.1 h

/-- A matched text has the four pipes of the separators and those of the
    groups and of the unmatched remainder. -/
theorem Segments.count_pipe {text g1 g2 g3 g4 g5 rest : Str}
    (h : Segments text g1 g2 g3 g4 g5 rest) :
    text.count '|' =
      4 + g1.count '|' + g3.count '|' + g4.count '|' + g5.count '|' + rest.count '|' := by
  obtain ⟨kw, w0, w1, w2, w3, w4, w5, w6, w7, w8, rfl, hkw, -, hw0, hw1, hw2, hw3, hw4, hw5,
    hw6, hw7, hw8, -, -, hd, -⟩ := h
  simp only [List.count_append, List.count_cons_self, count_pipe_zero (noPipe_of_isKeyword hkw),
    count_pipe_zero (noPipe_of_reSpace hw0), count_pipe_zero (noPipe_of_reSpace hw1),
    count_pipe_zero (noPipe_of_reSpace hw2), count_pipe_zero (noPipe_of_reSpace hw3),
    count_pipe_zero (noPipe_of_reSpace hw4), count_pipe_zero (noPipe_of_reSpace hw5),
    count_pipe_zero (noPipe_of_reSpace hw6), count_pipe_zero (noPipe_of_reSpace hw7),
    count_pipe_zero (noPipe_of_reSpace hw8), count_pipe_zero (noPipe_of_isDate hd)]
  omega

theorem mem_of_mem_TrimSpace {s : Str} {c : Char} (h : c ∈ TrimSpace s) : c ∈ s :=
  List.IsSuffix.subset (List.dropWhile_suffix isSpace) (List.IsPrefix.subset (List.rdropWhile_prefix isSpace _) h)


/-- A command `Task n | d | a | t | x` with pipe-free segments has exactly
    four pipes. -/
theorem command_count_pipe (n d a t x : Str) (hn : '|' ∉ n) (hd : '|' ∉ d) (ha : '|' ∉ a)
    (ht : '|' ∉ t) (hx : '|' ∉ x) :
    ("Task ".toList ++ n ++ " | ".toList ++ d ++ " | ".toList ++ a ++ " | ".toList ++ t ++
      " | ".toList ++ x).count '|' = 4 := by
  have e5 : "Task ".toList.count '|' = 0 := by decide
  have e3 : " | ".toList.count '|' = 1 := by decide
  simp only [List.count_append, e5, e3, count_pipe_zero hn, count_pipe_zero hd,
    count_pipe_zero ha, count_pipe_zero ht, count_pipe_zero hx]

/-- On a command with exactly four pipes, the date group and the attachment
    group lie inside the second and the fourth segment. -/
theorem command_aligned (n d a t x : Str) (hn : '|' ∉ n) (hd : '|' ∉ d) (ha : '|' ∉ a)
    (ht : '|' ∉ t) (hx : '|' ∉ x)
    (hok : (parseTaskCommand ("Task ".toList ++ n ++ " | ".toList ++ d ++ " | ".toList ++ a ++
      " | ".toList ++ t ++ " | ".toList ++ x)).ok = true) :
    ∃ g1 g2 g3 g4 g5 w2 w3 w6 w7,
      parseTaskCommand ("Task ".toList ++ n ++ " | ".toList ++ d ++ " | ".toList ++ a ++
        " | ".toList ++ t ++ " | ".toList ++ x) =
        ⟨TrimSpace g1, TrimSpace g2, TrimSpace g3, TrimSpace g4, TrimSpace g5, true⟩ ∧
      isDate g2 = true ∧ allIn reSpace w2 ∧ allIn reSpace w3 ∧
      ' ' :: (d ++ [' ']) = w2 ++ (g2 ++ w3) ∧
      g4 ≠ [] ∧ allIn reNotSpace g4 ∧ allIn reSpace w6 ∧ allIn reSpace w7 ∧
      ' ' :: (t ++ [' ']) = w6 ++ (g4 ++ w7) := by
  obtain ⟨g1, g2, g3, g4, g5, rest, hseg, hres⟩ := parseTaskCommand_ok hok
  have hcnt := hseg.count_pipe
  rw [command_count_pipe n d a t x hn hd ha ht hx] at hcnt
  have c1 : '|' ∉ g1 := noPipe_of_count (by omega)
  have c3 : '|' ∉ g3 := noPipe_of_count (by omega)
  have c4 : '|' ∉ g4 := noPipe_of_count (by omega)
  obtain ⟨kw, w0, w1, w2, w3, w4, w5, w6, w7, w8, htext, hkw, -, hw0, hw1, hw2, hw3, hw4, hw5,
    hw6, hw7, hw8, -, -, hdate, -, -, hg4ne, hg4, -⟩ := hseg
  have e5 : "Task ".toList = ['T', 'a', 's', 'k', ' '] := rfl
  have e3 : " | ".toList = [' ', '|', ' '] := rfl
  have hl : "Task ".toList ++ n ++ " | ".toList ++ d ++ " | ".toList ++ a ++ " | ".toList ++
      t ++ " | ".toList ++ x =
      ("Task ".toList ++ n ++ [' ']) ++ '|' :: ((' ' :: (d ++ [' '])) ++ '|' ::
        ((' ' :: (a ++ [' '])) ++ '|' :: ((' ' :: (t ++ [' '])) ++ '|' :: (' ' :: x)))) := by
    simp [e3]
  have hr : kw ++ (w0 ++ (g1 ++ (w1 ++ '|' :: (w2 ++ (g2 ++ (w3 ++ '|' :: (w4 ++ (g3 ++
      (w5 ++ '|' :: (w6 ++ (g4 ++ (w7 ++ '|' :: (w8 ++ (g5 ++ rest)))))))))))))) =
      (kw ++ (w0 ++ (g1 ++ w1))) ++ '|' :: ((w2 ++ (g2 ++ w3)) ++ '|' ::
        ((w4 ++ (g3 ++ w5)) ++ '|' :: ((w6 ++ (g4 ++ w7)) ++ '|' :: (w8 ++ (g5 ++ rest))))) := by
    simp
  rw [hl, hr] at htext
  have p5 : '|' ∉ "Task ".toList := by decide
  have q1 : '|' ∉ "Task ".toList ++ n ++ [' '] := by
    simp only [List.mem_append, not_or]
    exact ⟨⟨p5, hn⟩, by decide⟩
  have q1' : '|' ∉ kw ++ (w0 ++ (g1 ++ w1)) := by
    simp only [List.mem_append, not_or]
    exact ⟨noPipe_of_isKeyword hkw, noPipe_of_reSpace hw0, c1, noPipe_of_reSpace hw1⟩
  obtain ⟨-, h2⟩ := split_unique q1 q1' htext
  have q2 : '|' ∉ ' ' :: (d ++ [' ']) := by
    simp only [List.mem_cons, List.mem_append, not_or]
    exact ⟨by decide, hd, by decide, by simp⟩
  have q2' : '|' ∉ w2 ++ (g2 ++ w3) := by
    simp only [List.mem_append, not_or]
    exact ⟨noPipe_of_reSpace hw2, noPipe_of_isDate hdate, noPipe_of_reSpace hw3⟩
  obtain ⟨h2e, h3⟩ := split_unique q2 q2' h2
  have q3 : '|' ∉ ' ' :: (a ++ [' ']) := by
    simp only [List.mem_cons, List.mem_append, not_or]
    exact ⟨by decide, ha, by decide, by simp⟩
  have q3' : '|' ∉ w4 ++ (g3 ++ w5) := by
    simp only [List.mem_append, not_or]
    exact ⟨noPipe_of_reSpace hw4, c3, noPipe_of_reSpace hw5⟩
  obtain ⟨-, h4⟩ := split_unique q3 q3' h3
  have q4 : '|' ∉ ' ' :: (t ++ [' ']) := by
    simp only [List.mem_cons, List.mem_append, not_or]
    exact ⟨by decide, ht, by decide, by simp⟩
  have q4' : '|' ∉ w6 ++ (g4 ++ w7) := by
    simp only [List.mem_append, not_or]
    exact ⟨noPipe_of_reSpace hw6, c4, noPipe_of_reSpace hw7⟩
  obtain ⟨h4e, -⟩ := split_unique q4 q4' h4
  exact ⟨g1, g2, g3, g4, g5, w2, w3, w6, w7, hres, hdate, hw2, hw3, h2e, hg4ne, hg4, hw6, hw7,
    h4e⟩


/-! ### Trimming padded segments -/

theorem rdropWhile_append_of_pos {l w : Str} (hw : allIn isSpace w) :
    (l ++ w).rdropWhile isSpace = l.rdropWhile isSpace := by
  simp only [List.rdropWhile, List.reverse_append]
  rw [List.dropWhile_append_of_pos (by simpa [allIn] using hw)]

theorem rdropWhile_append_of_exists {l g : Str} (h : ∃ c ∈ g, isSpace c = false) :
    (l ++ g).rdropWhile isSpace = l ++ g.rdropWhile isSpace := by
  obtain ⟨c, hc, hcs⟩ := h
  have hne : g.reverse.dropWhile isSpace ≠ [] := by
    intro hnil
    have := List.dropWhile_eq_nil_iff.1 hnil c (by simpa using hc)
    rw [hcs] at this
    exact absurd this (by simp)
  simp only [List.rdropWhile, List.reverse_append, List.dropWhile_append]
  cases hd : g.reverse.dropWhile isSpace with
  | nil => exact absurd hd hne
  | cons y ys => simp

theorem TrimSpace_pad {w g w' : Str} (hw : allIn isSpace w) (hw' : allIn isSpace w')
    (hne : g ≠ []) (hg : NoOuterSpace g) : TrimSpace (w ++ (g ++ w')) = g := by
  unfold TrimSpace
  rw [List.dropWhile_append_of_pos hw]
  cases g with
  | nil => exact absurd rfl hne
  | cons c g' =>
    have hc : isSpace c = false := hg.1 c (by simp)
    rw [List.cons_append, List.dropWhile_cons_of_neg (by simp [hc]), ← List.cons_append,
      rdropWhile_append_of_pos hw', List.rdropWhile_eq_self_iff]
    intro hl
    have := hg.2 ((c :: g').getLast hl) (by simp [List.getLast?_eq_getLast _ hl])
    simp [this]

theorem TrimSpace_suffix_rdropWhile (g : Str) : TrimSpace g <:+ g.rdropWhile isSpace := by
  unfold TrimSpace
  cases hd : g.dropWhile isSpace with
  | nil => simp
  | cons c b =>
    have hc : isSpace c = false := by
      have h0 := List.dropWhile_get_zero_not isSpace g (by simp [hd])
      simpa [hd] using h0
    have hg : g = g.takeWhile isSpace ++ c :: b := by
      rw [← hd, List.takeWhile_append_dropWhile]
    have hr : g.rdropWhile isSpace = g.takeWhile isSpace ++ (c :: b).rdropWhile isSpace := by
      conv_lhs => rw [hg]
      exact rdropWhile_append_of_exists ⟨c, by simp, hc⟩
    rw [hr]
    exact List.suffix_append _ _

theorem TrimSpace_suffix_of_append (pre g : Str) :
    TrimSpace g <:+ (pre ++ g).rdropWhile isSpace := by
  by_cases h : ∃ c ∈ g, isSpace c = false
  · rw [rdropWhile_append_of_exists h]
    exact (TrimSpace_suffix_rdropWhile g).trans (List.suffix_append _ _)
  · have hall : ∀ x ∈ g, isSpace x = true := by
      intro x hx
      cases hs : isSpace x with
      | true => rfl
      | false => exact absurd ⟨x, hx, hs⟩ h
    have : TrimSpace g = [] := by
      unfold TrimSpace
      rw [List.dropWhile_eq_nil_iff.2 hall]
      rfl
    rw [this]
    exact List.nil_suffix

/-- A segment ` d ` that the pattern reads as `\s*`, date, `\s*` trims to the date. -/
theorem TrimSpace_date_segment {d w2 g2 w3 : Str} (hg : isDate g2 = true)
    (hw2 : allIn reSpace w2) (hw3 : allIn reSpace w3)
    (h : ' ' :: (d ++ [' ']) = w2 ++ (g2 ++ w3)) : TrimSpace d = g2 := by
  have hns := isDate_noOuterSpace hg
  obtain ⟨y1, y2, y3, y4, m1, m2, d1, d2, rfl, a1, -, -, -, -, -, -, a8⟩ := isDate_cases hg
  cases w2 with
  | nil =>
    simp only [List.nil_append, List.cons_append, List.cons.injEq] at h
    rw [← h.1] at a1
    exact absurd a1 (by decide)
  | cons c w2' =>
    simp only [List.cons_append, List.cons.injEq] at h
    obtain ⟨-, h⟩ := h
    rcases List.eq_nil_or_concat w3 with rfl | ⟨w3', c', rfl⟩
    · have hl := congrArg List.getLast? h
      simp at hl
      rw [← hl] at a8
      exact absurd a8 (by decide)
    · have h' : d ++ [' '] = (w2' ++ ([y1, y2, y3, y4, '-', m1, m2, '-', d1, d2] ++ w3')) ++ [c'] := by
        rw [h]; simp
      have hd := List.append_inj_left' h' rfl
      rw [hd]
      exact TrimSpace_pad (fun x hx => reSpace_isSpace (hw2 x (by simp [hx])))
        (fun x hx => reSpace_isSpace (hw3 x (by simp [hx]))) (by simp) hns

/-- A `\s` character with a character outside `\s` on either side cannot lie
    in a text that the pattern reads as `\s*`, `\S+`, `\s*`. -/
theorem space_inside_token {p q w g w' : Str} {c : Char} (hc : reSpace c = true)
    (hp : ∃ b ∈ p, reSpace b = false) (hq : ∃ b ∈ q, reSpace b = false)
    (hw : allIn reSpace w) (hg : allIn reNotSpace g) (hw' : allIn reSpace w')
    (h : p ++ c :: q = w ++ (g ++ w')) : False := by
  obtain ⟨b1, hb1, hb1s⟩ := hp
  obtain ⟨b2, hb2, hb2s⟩ := hq
  have hq' : ∀ l : Str, allIn reSpace l → ¬ (∃ m, l = m ++ c :: q) := by
    rintro l hl ⟨m, rfl⟩
    have := hl b2 (by simp [hb2])
    rw [this] at hb2s
    exact absurd hb2s (by simp)
  rcases List.append_eq_append_iff.1 h with ⟨a', rfl, ha'⟩ | ⟨c', rfl, hc'⟩
  · have := hw b1 (by simp [hb1])
    rw [this] at hb1s
    exact absurd hb1s (by simp)
  · rcases List.append_eq_append_iff.1 hc'.symm with ⟨e, rfl, he⟩ | ⟨e, rfl, he⟩
    · cases e with
      | nil =>
        simp only [List.nil_append] at he
        exact hq' w' hw' ⟨[], by simp [he]⟩
      | cons x e' =>
        simp only [List.cons_append, List.cons.injEq] at he
        obtain ⟨rfl, -⟩ := he
        have := hg c (by simp)
        simp [reNotSpace, hc] at this
    · exact hq' w' hw' ⟨e, he⟩


/-- C2, at the input `Task  |2025-03-01|a|b|c` (two spaces after the
    keyword): the parse succeeds and the returned task is the empty string.
    `\s+` gives one space back to `(.+?)`, whose capture is a single space
    that `strings.TrimSpace` then empties. -/
theorem parseTaskCommand_blank_task :
    parseTaskCommand "Task  |2025-03-01|a|b|c".toList =
      ⟨[], "2025-03-01".toList, "a".toList, "b".toList, "c".toList, true⟩ := by
  decide

/-- C3 as stated fails: on `Task a|2025-03-01|b|c|d` followed by a line feed
    and `zzz` the parse succeeds with description `d`, and the input with
    trailing whitespace removed does not end with that description; the second
    line is dropped. -/
theorem description_drops_later_lines :
    (parseTaskCommand "Task a|2025-03-01|b|c|d\nzzz".toList).ok = true ∧
    (parseTaskCommand "Task a|2025-03-01|b|c|d\nzzz".toList).description = "d".toList ∧
    ¬ ((parseTaskCommand "Task a|2025-03-01|b|c|d\nzzz".toList).description <:+
        ("Task a|2025-03-01|b|c|d\nzzz".toList).rdropWhile isSpace) := by
  decide

/-- C3, amended: on every input on which `parseTaskCommand` returns
    `ok = true`, the input is cut as the pattern cuts it (`Segments`): keyword,
    `\s+`, `g1`, separator, `g2`, separator, `g3`, separator, `g4`, separator,
    `g5`, `rest`, each separator being `\s*`, `|`, `\s*`; the five returned
    fields are the trimmed `g1` .. `g5`.  So the returned description is the
    trimmed remainder of the input after the delimiter that follows the
    attachment group `g4`, up to the first line feed: `g5` is non-empty and has
    no line feed, and `rest`, which is empty or starts with a line feed, is
    not part of any returned field.  When `rest` is empty, in particular when
    the input has no line feed, the input with trailing whitespace removed
    ends with the returned description. -/
theorem description_rest_of_line (text : Str) (hok : (parseTaskCommand text).ok = true) :
    ∃ g1 g2 g3 g4 g5 rest, Segments text g1 g2 g3 g4 g5 rest ∧
      parseTaskCommand text =
        ⟨TrimSpace g1, TrimSpace g2, TrimSpace g3, TrimSpace g4, TrimSpace g5, true⟩ ∧
      g5 ≠ [] ∧ '\n' ∉ g5 ∧ (∀ c ∈ rest.head?, c = '\n') ∧
      (rest = [] → (parseTaskCommand text).description <:+ text.rdropWhile isSpace) ∧
      ('\n' ∉ text → (parseTaskCommand text).description <:+ text.rdropWhile isSpace) := by
  obtain ⟨g1, g2, g3, g4, g5, rest, hseg, hres⟩ := parseTaskCommand_ok hok
  have hseg' := hseg
  obtain ⟨kw, w0, w1, w2, w3, w4, w5, w6, w7, w8, htext, -, -, -, -, -, -, -, -,
    -, -, -, -, -, -, -, -, -, -, hg5ne, hg5, hrest⟩ := hseg'
  have hrest' : ∀ c ∈ rest.head?, c = '\n' := by
    intro c hc
    have := hrest c hc
    simpa [reDot] using this
  have hnl : '\n' ∉ g5 := by
    intro hm
    have := hg5 _ hm
    simp [reDot] at this
  have hsuf : rest = [] → (parseTaskCommand text).description <:+ text.rdropWhile isSpace := by
    rintro rfl
    rw [hres, htext]
    have e : kw ++ (w0 ++ (g1 ++ (w1 ++ '|' :: (w2 ++ (g2 ++ (w3 ++ '|' :: (w4 ++ (g3 ++
        (w5 ++ '|' :: (w6 ++ (g4 ++ (w7 ++ '|' :: (w8 ++ (g5 ++ [])))))))))))))) =
        (kw ++ (w0 ++ (g1 ++ (w1 ++ '|' :: (w2 ++ (g2 ++ (w3 ++ '|' :: (w4 ++ (g3 ++
        (w5 ++ '|' :: (w6 ++ (g4 ++ (w7 ++ '|' :: w8))))))))))))) ++ g5 := by
      simp
    rw [e]
    exact TrimSpace_suffix_of_append _ g5
  refine ⟨g1, g2, g3, g4, g5, rest, hseg, hres, hg5ne, hnl, hrest', hsuf, ?_⟩
  intro hno
  apply hsuf
  cases rest with
  | nil => rfl
  | cons c r =>
    have hc : c = '\n' := hrest' c (by simp)
    subst hc
    exact absurd (by rw [htext]; simp) hno

/-- An instance of `description_rest_of_line`: a two-line message. -/
theorem description_rest_of_line_witness :
    ∃ g1 g2 g3 g4 g5 rest,
      Segments "Task a|2025-03-01|b|c| d e \nzzz".toList g1 g2 g3 g4 g5 rest ∧
      parseTaskCommand "Task a|2025-03-01|b|c| d e \nzzz".toList =
        ⟨TrimSpace g1, TrimSpace g2, TrimSpace g3, TrimSpace g4, TrimSpace g5, true⟩ ∧
      g5 ≠ [] ∧ '\n' ∉ g5 ∧ (∀ c ∈ rest.head?, c = '\n') ∧
      (rest = [] → (parseTaskCommand "Task a|2025-03-01|b|c| d e \nzzz".toList).description <:+
        ("Task a|2025-03-01|b|c| d e \nzzz".toList).rdropWhile isSpace) ∧
      ('\n' ∉ "Task a|2025-03-01|b|c| d e \nzzz".toList →
        (parseTaskCommand "Task a|2025-03-01|b|c| d e \nzzz".toList).description <:+
        ("Task a|2025-03-01|b|c| d e \nzzz".toList).rdropWhile isSpace) :=
  description_rest_of_line "Task a|2025-03-01|b|c| d e \nzzz".toList (by decide)

/-- C4 as stated fails twice.  With a further `|` in the description, the
    lazy assignee group grows over the attachment segment `foo bar`:
    `Task n | 2025-03-01 | a | foo bar | x | y` parses with assignee
    `a | foo bar`, attachment `x` and description `y`.  And a whitespace
    character outside the class `\s`, such as the no-break space U+00A0, is
    matched by `\S+`: `foo`, U+00A0, `bar` is accepted as the attachment. -/
theorem attachment_with_space_matches :
    parseTaskCommand "Task n | 2025-03-01 | a | foo bar | x | y".toList =
      ⟨"n".toList, "2025-03-01".toList, "a | foo bar".toList, "x".toList, "y".toList, true⟩ ∧
    isSpace '\u00a0' = true ∧
    parseTaskCommand "Task n | 2025-03-01 | a | foo\u00a0bar | x".toList =
      ⟨"n".toList, "2025-03-01".toList, "a".toList, "foo\u00a0bar".toList, "x".toList, true⟩ := by
  decide

/-- C4, amended: for an input `Task n | d | a | t | x` where `n`, `a` are
    non-empty and free of `|`, `d` has the shape 4-2-2 digits, `x` is non-empty
    and free of `|`, and `t = u ++ c :: v` is free of `|` with `c` in the
    class `\s` (space, tab, line feed, form feed, carriage return) and a
    character outside `\s` both in `u` and in `v`, `parseTaskCommand` returns
    `ok = false`. -/
theorem attachment_with_space_no_match (n d a u v x : Str) (c : Char)
    (_hn : n ≠ []) (hnp : '|' ∉ n) (hd : isDate d = true) (_ha : a ≠ []) (hap : '|' ∉ a)
    (_hx : x ≠ []) (hxp : '|' ∉ x)
    (htp : '|' ∉ u ++ c :: v) (hc : reSpace c = true)
    (hu : ∃ b ∈ u, reSpace b = false) (hv : ∃ b ∈ v, reSpace b = false) :
    (parseTaskCommand ("Task ".toList ++ n ++ " | ".toList ++ d ++ " | ".toList ++ a ++
      " | ".toList ++ (u ++ c :: v) ++ " | ".toList ++ x)).ok = false := by
  cases hok : (parseTaskCommand ("Task ".toList ++ n ++ " | ".toList ++ d ++ " | ".toList ++ a ++
      " | ".toList ++ (u ++ c :: v) ++ " | ".toList ++ x)).ok with
  | false => rfl
  | true =>
    exfalso
    obtain ⟨g1, g2, g3, g4, g5, w2, w3, w6, w7, -, -, -, -, -, -, hg4, hw6, hw7, h4⟩ :=
      command_aligned n d a (u ++ c :: v) x hnp (noPipe_of_isDate hd) hap htp hxp hok
    obtain ⟨b1, hb1, hb1s⟩ := hu
    obtain ⟨b2, hb2, hb2s⟩ := hv
    refine space_inside_token (p := ' ' :: u) (q := v ++ [' ']) hc
      ⟨b1, by simp [hb1], hb1s⟩ ⟨b2, by simp [hb2], hb2s⟩ hw6 hg4 hw7 ?_
    rw [← h4]
    simp

/-- An instance of `attachment_with_space_no_match`: the attachment `foo bar`. -/
theorem attachment_with_space_no_match_witness :
    (parseTaskCommand ("Task ".toList ++ "n".toList ++ " | ".toList ++ "2025-03-01".toList ++
      " | ".toList ++ "a".toList ++ " | ".toList ++ ("foo".toList ++ ' ' :: "bar".toList) ++
      " | ".toList ++ "x".toList)).ok = false :=
  attachment_with_space_no_match "n".toList "2025-03-01".toList "a".toList "foo".toList
    "bar".toList "x".toList ' ' (by decide) (by decide) (by decide) (by decide) (by decide)
    (by decide) (by decide) (by decide) (by decide) ⟨'f', by decide, by decide⟩
    ⟨'b', by decide, by decide⟩

/-- C5: for an input `Task n | d | a | t | x` in which none of `n`, `d`,
    `a`, `t`, `x` contains `|`, `parseTaskCommand` returns `ok = true` only if
    `d` with its surrounding whitespace removed has the shape four digits,
    `-`, two digits, `-`, two digits; the returned deadline is that date. -/
theorem date_shape_required (n d a t x : Str) (hn : '|' ∉ n) (hd : '|' ∉ d) (ha : '|' ∉ a)
    (ht : '|' ∉ t) (hx : '|' ∉ x)
    (hok : (parseTaskCommand ("Task ".toList ++ n ++ " | ".toList ++ d ++ " | ".toList ++ a ++
      " | ".toList ++ t ++ " | ".toList ++ x)).ok = true) :
    isDate (TrimSpace d) = true ∧
    (parseTaskCommand ("Task ".toList ++ n ++ " | ".toList ++ d ++ " | ".toList ++ a ++
      " | ".toList ++ t ++ " | ".toList ++ x)).deadline = TrimSpace d := by
  obtain ⟨g1, g2, g3, g4, g5, w2, w3, w6, w7, hres, hdate, hw2, hw3, h2, -⟩ :=
    command_aligned n d a t x hn hd ha ht hx hok
  have htrim := TrimSpace_date_segment hdate hw2 hw3 h2
  rw [htrim, hres]
  exact ⟨hdate, TrimSpace_eq_self (isDate_noOuterSpace hdate)⟩

/-- The dates of the spec: `2025-03-01` is accepted and returned, `2025-3-1` is
    rejected. -/
theorem date_shape_required_witness :
    (isDate (TrimSpace "2025-03-01".toList) = true ∧
      (parseTaskCommand ("Task ".toList ++ "Buy milk".toList ++ " | ".toList ++
        "2025-03-01".toList ++ " | ".toList ++ "Alice".toList ++ " | ".toList ++
        "http://x/y".toList ++ " | ".toList ++ "pick 2% fat".toList)).deadline =
        TrimSpace "2025-03-01".toList) ∧
    (parseTaskCommand "Task Buy milk | 2025-03-01 | Alice | http://x/y | pick 2% fat".toList).deadline
      = "2025-03-01".toList ∧
    (parseTaskCommand "Task Buy milk | 2025-3-1 | Alice | http://x/y | pick 2% fat".toList).ok
      = false :=
  ⟨date_shape_required "Buy milk".toList "2025-03-01".toList "Alice".toList "http://x/y".toList
    "pick 2% fat".toList (by decide) (by decide) (by decide) (by decide) (by decide)
    (by decide), by decide, by decide⟩

/-- C10 as stated fails: the returned task name and the returned assignee can
    contain `|`.  `Task a | b | 2025-03-01 | c | d | e` parses with task
    `a | b`, and `Task n | 2025-03-01 | a | b c | d | e` with assignee
    `a | b c`. -/
theorem pipes_in_task_and_assignee :
    parseTaskCommand "Task a | b | 2025-03-01 | c | d | e".toList =
      ⟨"a | b".toList, "2025-03-01".toList, "c".toList, "d".toList, "e".toList, true⟩ ∧
    parseTaskCommand "Task n | 2025-03-01 | a | b c | d | e".toList =
      ⟨"n".toList, "2025-03-01".toList, "a | b c".toList, "d".toList, "e".toList, true⟩ := by
  decide

/-- On an input with exactly four `|` characters a successful parse returns
    no field that contains `|`: the pipes are those of the separators. -/
theorem no_pipe_of_four_pipes (text : Str) (hok : (parseTaskCommand text).ok = true)
    (h4 : text.count '|' = 4) :
    '|' ∉ (parseTaskCommand text).task ∧ '|' ∉ (parseTaskCommand text).deadline ∧
    '|' ∉ (parseTaskCommand text).assignTo ∧ '|' ∉ (parseTaskCommand text).attachment ∧
    '|' ∉ (parseTaskCommand text).description := by
  obtain ⟨g1, g2, g3, g4, g5, rest, hseg, hres⟩ := parseTaskCommand_ok hok
  have hcnt := hseg.count_pipe
  rw [h4] at hcnt
  have c1 : '|' ∉ g1 := noPipe_of_count (by omega)
  have c3 : '|' ∉ g3 := noPipe_of_count (by omega)
  have c4 : '|' ∉ g4 := noPipe_of_count (by omega)
  have c5 : '|' ∉ g5 := noPipe_of_count (by omega)
  obtain ⟨kw, w0, w1, w2, w3, w4, w5, w6, w7, w8, -, -, -, -, -, -, -, -, -,
    -, -, -, -, -, hdate, -⟩ := hseg
  rw [hres]
  exact ⟨fun h => c1 (mem_of_mem_TrimSpace h),
    fun h => noPipe_of_isDate hdate (mem_of_mem_TrimSpace h),
    fun h => c3 (mem_of_mem_TrimSpace h), fun h => c4 (mem_of_mem_TrimSpace h),
    fun h => c5 (mem_of_mem_TrimSpace h)⟩

/-- C10, amended: further pipes can appear only in the final segment of a
    well-formed command.  For a keyword `kw` spelled in upper or lower case, a
    name `n` and an assignee `a` that are non-empty, free of `|` and of line
    feeds and without leading or trailing whitespace, a date `d` of the shape
    4-2-2 digits, a token `t` that is non-empty and has no whitespace and no
    `|`, and a description `x` that is non-empty, free of line feeds, without
    leading or trailing whitespace and with any number of further `|`
    characters: none of the returned task name, deadline, assignee and
    attachment contains `|`, and the description is `x`, further pipes
    included. -/
theorem further_pipes_only_in_description (kw n d a t x : Str)
    (hkw : isTaskSpelling kw = true)
    (hn : n ≠ []) (hnp : '|' ∉ n) (hnl : '\n' ∉ n) (hns : NoOuterSpace n)
    (hd : isDate d = true)
    (ha : a ≠ []) (hap : '|' ∉ a) (hal : '\n' ∉ a) (has : NoOuterSpace a)
    (ht : t ≠ []) (hts : ∀ c ∈ t, isSpace c = false) (htp : '|' ∉ t)
    (hx : x ≠ []) (hxl : '\n' ∉ x) (hxs : NoOuterSpace x) :
    '|' ∉ (parseTaskCommand (kw ++ " ".toList ++ n ++ " | ".toList ++ d ++ " | ".toList ++ a ++
      " | ".toList ++ t ++ " | ".toList ++ x)).task ∧
    '|' ∉ (parseTaskCommand (kw ++ " ".toList ++ n ++ " | ".toList ++ d ++ " | ".toList ++ a ++
      " | ".toList ++ t ++ " | ".toList ++ x)).deadline ∧
    '|' ∉ (parseTaskCommand (kw ++ " ".toList ++ n ++ " | ".toList ++ d ++ " | ".toList ++ a ++
      " | ".toList ++ t ++ " | ".toList ++ x)).assignTo ∧
    '|' ∉ (parseTaskCommand (kw ++ " ".toList ++ n ++ " | ".toList ++ d ++ " | ".toList ++ a ++
      " | ".toList ++ t ++ " | ".toList ++ x)).attachment ∧
    (parseTaskCommand (kw ++ " ".toList ++ n ++ " | ".toList ++ d ++ " | ".toList ++ a ++
      " | ".toList ++ t ++ " | ".toList ++ x)).description = x ∧
    (parseTaskCommand (kw ++ " ".toList ++ n ++ " | ".toList ++ d ++ " | ".toList ++ a ++
      " | ".toList ++ t ++ " | ".toList ++ x)).ok = true := by
  have hres : parseTaskCommand (kw ++ " ".toList ++ n ++ " | ".toList ++ d ++ " | ".toList ++
      a ++ " | ".toList ++ t ++ " | ".toList ++ x) = ⟨n, d, a, t, x, true⟩ := by
    unfold parseTaskCommand
    rw [FindStringSubmatch_wellFormed kw n d a t x hkw hn hnp hnl hns hd ha hap hal has ht hts
      hx hxl hxs]
    simp only []
    rw [TrimSpace_eq_self hns, TrimSpace_eq_self (isDate_noOuterSpace hd),
      TrimSpace_eq_self has, TrimSpace_eq_self (noOuterSpace_of_all hts),
      TrimSpace_eq_self hxs]
  rw [hres]
  exact ⟨hnp, noPipe_of_isDate hd, hap, htp, rfl, rfl⟩

/-- An instance of `further_pipes_only_in_description`: a description with two
    further pipes. -/
theorem further_pipes_only_in_description_witness :
    '|' ∉ (parseTaskCommand
      "Task Buy milk | 2025-03-01 | Alice | http://x/y | 2% fat | or 1% | ask".toList).task ∧
    '|' ∉ (parseTaskCommand
      "Task Buy milk | 2025-03-01 | Alice | http://x/y | 2% fat | or 1% | ask".toList).deadline ∧
    '|' ∉ (parseTaskCommand
      "Task Buy milk | 2025-03-01 | Alice | http://x/y | 2% fat | or 1% | ask".toList).assignTo ∧
    '|' ∉ (parseTaskCommand
      "Task Buy milk | 2025-03-01 | Alice | http://x/y | 2% fat | or 1% | ask".toList).attachment ∧
    (parseTaskCommand
      "Task Buy milk | 2025-03-01 | Alice | http://x/y | 2% fat | or 1% | ask".toList).description =
      "2% fat | or 1% | ask".toList ∧
    (parseTaskCommand
      "Task Buy milk | 2025-03-01 | Alice | http://x/y | 2% fat | or 1% | ask".toList).ok = true :=
  further_pipes_only_in_description "Task".toList "Buy milk".toList "2025-03-01".toList
    "Alice".toList "http://x/y".toList "2% fat | or 1% | ask".toList
    (by decide) (by decide) (by decide) (by decide) (by unfold NoOuterSpace; decide)
    (by decide) (by decide) (by decide) (by decide) (by unfold NoOuterSpace; decide)
    (by decide) (by decide) (by decide)
    (by decide) (by decide) (by unfold NoOuterSpace; decide)

/-! ### Event handler, relay and bootstrap -/

/-- C6: the handler drops filtered events before any parsing or side effect.
    An event that is self-originated, or has an empty conversation body, or is
    timestamped strictly before the start time leaves an empty trace: no call
    of `parseTaskCommand`, no call of `addTaskToAirtable`, no message sent,
    whatever its body.  An event from someone else with a non-empty body whose
    timestamp equals the start time is not dropped: the handler goes on to
    parse its trimmed body. -/
theorem handler_drops_filtered (startTime : Int) (clientDo : AirtableRecord → HttpResult)
    (v : MessageEvent) :
    ((v.IsFromMe = true ∨ v.Conversation = [] ∨ v.Timestamp < startTime) →
      handler startTime clientDo (.message v) = []) ∧
    (v.IsFromMe = false → v.Conversation ≠ [] → v.Timestamp = startTime →
      (handler startTime clientDo (.message v)).head? =
        some (.parse (TrimSpace v.Conversation))) := by
  constructor
  · rintro (h | h | h)
    · simp [handler, h]
    · simp [handler, h]
    · simp [handler, h]
  · intro h1 h2 h3
    have h2' : (v.Conversation == []) = false := by simpa using h2
    have h3' : ¬ v.Timestamp < startTime := by omega
    simp only [handler, h1, h2', Bool.or_self, Bool.false_eq_true, if_false, h3']
    split <;> rfl

/-- Instances of `handler_drops_filtered`: a self-originated task command, an
    empty body, a command timestamped before the start, and one timestamped
    at the start. -/
theorem handler_drops_filtered_witness :
    handler 100 (fun _ => .response 200 "200 OK".toList)
      (.message ⟨true, "Task a | 2025-03-01 | b | c | d".toList, 200, "Ann".toList,
        "4915".toList⟩) = [] ∧
    handler 100 (fun _ => .response 200 "200 OK".toList)
      (.message ⟨false, [], 200, "Ann".toList, "4915".toList⟩) = [] ∧
    handler 100 (fun _ => .response 200 "200 OK".toList)
      (.message ⟨false, "Task a | 2025-03-01 | b | c | d".toList, 99, "Ann".toList,
        "4915".toList⟩) = [] ∧
    (handler 100 (fun _ => .response 200 "200 OK".toList)
      (.message ⟨false, "Task a | 2025-03-01 | b | c | d".toList, 100, "Ann".toList,
        "4915".toList⟩)).head? =
      some (.parse (TrimSpace "Task a | 2025-03-01 | b | c | d".toList)) :=
  ⟨(handler_drops_filtered 100 _ _).1 (Or.inl rfl),
   (handler_drops_filtered 100 _ _).1 (Or.inr (Or.inl rfl)),
   (handler_drops_filtered 100 _ _).1 (Or.inr (Or.inr (by decide))),
   (handler_drops_filtered 100 _ _).2 rfl (by decide) rfl⟩

/-- C7: `addTaskToAirtable` classifies the answer of the sink.  A transport
    error `e` is returned as it is; a response with status code in
    `[300, 599]` and status text `s` gives the error `airtable error: ` + `s`;
    a response with status code in `[200, 299]` gives `nil`. -/
theorem addTaskToAirtable_classifies (clientDo : AirtableRecord → HttpResult)
    (task deadline assignTo attachment description : Str) :
    (∀ e, clientDo ⟨task, deadline, assignTo, [attachment], description⟩ = .netError e →
      addTaskToAirtable clientDo task deadline assignTo attachment description = some e) ∧
    (∀ c s, clientDo ⟨task, deadline, assignTo, [attachment], description⟩ = .response c s →
      300 ≤ c → c ≤ 599 →
      addTaskToAirtable clientDo task deadline assignTo attachment description =
        some ("airtable error: ".toList ++ s)) ∧
    (∀ c s, clientDo ⟨task, deadline, assignTo, [attachment], description⟩ = .response c s →
      200 ≤ c → c ≤ 299 →
      addTaskToAirtable clientDo task deadline assignTo attachment description = none) := by
  refine ⟨?_, ?_, ?_⟩
  · intro e h
    simp [addTaskToAirtable, h]
  · intro c s h h1 _
    simp [addTaskToAirtable, h, h1]
  · intro c s h _ h2
    have : ¬ c ≥ 300 := by omega
    simp [addTaskToAirtable, h, this]

/-- Instances of `addTaskToAirtable_classifies`: a transport error, and the
    boundary status codes 300 and 299. -/
theorem addTaskToAirtable_classifies_witness :
    addTaskToAirtable (fun _ => .netError "dial tcp: timeout".toList) "t".toList
      "2025-03-01".toList "a".toList "u".toList "d".toList = some "dial tcp: timeout".toList ∧
    addTaskToAirtable (fun _ => .response 300 "300 Multiple Choices".toList) "t".toList
      "2025-03-01".toList "a".toList "u".toList "d".toList =
      some ("airtable error: ".toList ++ "300 Multiple Choices".toList) ∧
    addTaskToAirtable (fun _ => .response 299 "299 ".toList) "t".toList
      "2025-03-01".toList "a".toList "u".toList "d".toList = none :=
  ⟨(addTaskToAirtable_classifies _ _ _ _ _ _).1 _ rfl,
   (addTaskToAirtable_classifies _ _ _ _ _ _).2.1 300 _ rfl (by decide) (by decide),
   (addTaskToAirtable_classifies _ _ _ _ _ _).2.2 299 _ rfl (by decide) (by decide)⟩

/-- C8: reply composition.  For a message event that passes the filters:
    when its trimmed body parses, the handler calls the relay once and sends
    exactly one message, addressed to `OwnerJID`, whose text is the sender
    name followed by ` - ✅ Task added: task | deadline | assignTo` when the
    relay returned `nil` and by ` - ❌ Failed to add task to Airtable: ` and
    the error text when it returned an error, the sender name being `PushName`
    when that is non-empty and `Sender.User` otherwise; when the trimmed body
    does not parse, the handler sends nothing and does not call the relay. -/
theorem handler_reply (startTime : Int) (clientDo : AirtableRecord → HttpResult)
    (v : MessageEvent) (h1 : v.IsFromMe = false) (h2 : v.Conversation ≠ [])
    (h3 : startTime ≤ v.Timestamp) :
    ((parseTaskCommand (TrimSpace v.Conversation)).ok = true →
      relayCalls (handler startTime clientDo (.message v)) =
        [⟨(parseTaskCommand (TrimSpace v.Conversation)).task,
          (parseTaskCommand (TrimSpace v.Conversation)).deadline,
          (parseTaskCommand (TrimSpace v.Conversation)).assignTo,
          [(parseTaskCommand (TrimSpace v.Conversation)).attachment],
          (parseTaskCommand (TrimSpace v.Conversation)).description⟩] ∧
      (addTaskToAirtable clientDo (parseTaskCommand (TrimSpace v.Conversation)).task
          (parseTaskCommand (TrimSpace v.Conversation)).deadline
          (parseTaskCommand (TrimSpace v.Conversation)).assignTo
          (parseTaskCommand (TrimSpace v.Conversation)).attachment
          (parseTaskCommand (TrimSpace v.Conversation)).description = none →
        sentMessages (handler startTime clientDo (.message v)) =
          [(OwnerJID, (if v.PushName ≠ [] then v.PushName else v.SenderUser) ++
            " - ✅ Task added: ".toList ++ (parseTaskCommand (TrimSpace v.Conversation)).task ++
            " | ".toList ++ (parseTaskCommand (TrimSpace v.Conversation)).deadline ++
            " | ".toList ++ (parseTaskCommand (TrimSpace v.Conversation)).assignTo)]) ∧
      (∀ errorText,
        addTaskToAirtable clientDo (parseTaskCommand (TrimSpace v.Conversation)).task
          (parseTaskCommand (TrimSpace v.Conversation)).deadline
          (parseTaskCommand (TrimSpace v.Conversation)).assignTo
          (parseTaskCommand (TrimSpace v.Conversation)).attachment
          (parseTaskCommand (TrimSpace v.Conversation)).description = some errorText →
        sentMessages (handler startTime clientDo (.message v)) =
          [(OwnerJID, (if v.PushName ≠ [] then v.PushName else v.SenderUser) ++
            " - ❌ Failed to add task to Airtable: ".toList ++ errorText)])) ∧
    ((parseTaskCommand (TrimSpace v.Conversation)).ok = false →
      sentMessages (handler startTime clientDo (.message v)) = [] ∧
      relayCalls (handler startTime clientDo (.message v)) = []) := by
  have h2' : (v.Conversation == []) = false := by simpa using h2
  have h3' : ¬ v.Timestamp < startTime := by omega
  have hname : (if v.PushName ≠ [] then v.PushName else v.SenderUser) =
      (if (v.PushName == []) = true then v.SenderUser else v.PushName) := by
    by_cases hp : v.PushName = [] <;> simp [hp]
  constructor
  · intro hok
    refine ⟨?_, ?_, ?_⟩
    · simp [handler, h1, h2', h3', hok, relayCalls]
    · intro hnone
      rw [hname]
      simp [handler, h1, h2', h3', hok, sentMessages, hnone]
    · intro e he
      rw [hname]
      simp [handler, h1, h2', h3', hok, sentMessages, he]
  · intro hno
    simp [handler, h1, h2', h3', hno, sentMessages, relayCalls]

/-- Instances of `handler_reply`: a relayed command with a display name, a
    failed relay with the sender token as name, and ordinary conversation. -/
theorem handler_reply_witness :
    sentMessages (handler 100 (fun _ => .response 200 "200 OK".toList)
      (.message ⟨false, " Task Buy milk | 2025-03-01 | Alice | http://x/y | pick 2% fat ".toList,
        100, "Ann".toList, "4915".toList⟩)) =
      [(OwnerJID, "Ann - ✅ Task added: Buy milk | 2025-03-01 | Alice".toList)] ∧
    sentMessages (handler 100 (fun _ => .response 422 "422 Unprocessable Entity".toList)
      (.message ⟨false, "Task Buy milk | 2025-03-01 | Alice | http://x/y | pick 2% fat".toList,
        101, [], "4915".toList⟩)) =
      [(OwnerJID, "4915 - ❌ Failed to add task to Airtable: airtable error: 422 Unprocessable Entity".toList)] ∧
    (sentMessages (handler 100 (fun _ => .response 200 "200 OK".toList)
      (.message ⟨false, "hello there".toList, 101, "Ann".toList, "4915".toList⟩)) = [] ∧
     relayCalls (handler 100 (fun _ => .response 200 "200 OK".toList)
      (.message ⟨false, "hello there".toList, 101, "Ann".toList, "4915".toList⟩)) = []) :=
  ⟨((handler_reply 100 (fun _ => .response 200 "200 OK".toList)
      ⟨false, " Task Buy milk | 2025-03-01 | Alice | http://x/y | pick 2% fat ".toList,
        100, "Ann".toList, "4915".toList⟩ rfl (by decide) (by decide)).1 (by decide)).2.1
      (by decide),
   ((handler_reply 100 (fun _ => .response 422 "422 Unprocessable Entity".toList)
      ⟨false, "Task Buy milk | 2025-03-01 | Alice | http://x/y | pick 2% fat".toList,
        101, [], "4915".toList⟩ rfl (by decide) (by decide)).1 (by decide)).2.2
      ("airtable error: 422 Unprocessable Entity".toList) (by decide),
   (handler_reply 100 (fun _ => .response 200 "200 OK".toList)
      ⟨false, "hello there".toList, 101, "Ann".toList, "4915".toList⟩ rfl (by decide)
      (by decide)).2 (by decide)⟩

/-- A `timeout` item that comes before any `success` item ends startup
    without the handler attached. -/
theorem qrLoop_timeout_first (pre post : List QRChannelItem) (code : Str)
    (hpre : ∀ e ∈ pre, e.Event ≠ "success".toList ∧ e.Event ≠ "timeout".toList) :
    qrLoop (pre ++ ⟨"timeout".toList, code⟩ :: post) = .returned := by
  induction pre with
  | nil => simp [qrLoop]
  | cons e pre ih =>
    have he := hpre e (by simp)
    have ih' := ih (fun x hx => hpre x (by simp [hx]))
    rw [List.cons_append, qrLoop]
    split
    · exact ih'
    · rw [if_neg he.1, if_neg he.2]
      exact ih'

/-- C9, at the QR sequence `code`, `error` followed by the close of the
    channel (no stored credentials, `Connect` without error): the loop ends
    without having seen `success` and `main` goes on to attach the event
    handler.  The same holds when the channel closes without any item. -/
theorem startup_attaches_without_success :
    startup none none [⟨"code".toList, "2@abc".toList⟩, ⟨"error".toList, []⟩] = .attached ∧
    (∀ e ∈ [(⟨"code".toList, "2@abc".toList⟩ : QRChannelItem), ⟨"error".toList, []⟩],
      e.Event ≠ "success".toList) ∧
    startup none none [] = .attached := by
  decide

end TaskTracker
